import Mathlib

/-!
Verification of the Module 2 failure-pattern-discovery engine
(`src/equipment_monitoring/module2/`): a shallow embedding of the data
model (`graph.py`, `config.py`, `io.py`), the graph builder, the search
algorithms (`search.py`) and the pattern aggregator (`patterns.py`),
together with theorems settling the specification claims.

Modelling conventions:
* Python `float` values are modelled as `ℚ` (the arithmetic performed by
  the code on them — comparisons, `+ 1.0`, division by `10.0`, `min` —
  is exact on the values that occur).
* Python `dict`s are modelled as insertion-ordered association lists,
  Python `set`s as duplicate-free lists (membership is order-independent;
  where iteration order of a set matters, theorems quantify over the
  enumeration).
* Python `list.sort` (guaranteed stable) is modelled by a stable
  insertion sort `insSortBy`; a stable sort is extensionally unique.
* Unbounded `while` loops are modelled with an explicit fuel parameter
  returning `none` when the fuel is exhausted; a completed run of the
  Python loop corresponds to a `some` result, and theorems quantify over
  all fuels.
* Exceptions that escape a function are modelled with `Except`/sum-like
  result types (`BinResult` distinguishes Python `ValueError` from
  `IndexError`, since `discretize_sensors` catches only the former).
-/

set_option maxHeartbeats 1000000

namespace EqMon

/-- Lookup in an insertion-ordered association list (Python `dict` access
`d.get(k)` / `k in d`). -/
def alookup {α β : Type} [DecidableEq α] : List (α × β) → α → Option β
  | [], _ => none
  | (k, v) :: rest, a => if a = k then some v else alookup rest a

/-- Python `d[k] = v`: update the value of an existing key in place, or
append a new key at the end (dicts preserve insertion order). -/
def alistSet {α β : Type} [DecidableEq α] : List (α × β) → α → β → List (α × β)
  | [], k, v => [(k, v)]
  | (k₀, v₀) :: rest, k, v =>
    if k = k₀ then (k₀, v) :: rest else (k₀, v₀) :: alistSet rest k v

/-- Python `set.add`: a duplicate-free list gains the element at the end
if absent. -/
def listInsert {α : Type} [DecidableEq α] (l : List α) (a : α) : List α :=
  if a ∈ l then l else l ++ [a]

/-- Python `set.remove` on a duplicate-free list. -/
def listRemove {α : Type} [DecidableEq α] (l : List α) (a : α) : List α :=
  l.filter (fun x => x ≠ a)

/-- Stable insertion of `a` into `l`: `a` is placed before the first
element `b` with `le a b`, hence after every earlier element it ties
with. -/
def insertLE {α : Type} (le : α → α → Bool) (a : α) : List α → List α
  | [] => [a]
  | b :: rest => if le a b then a :: b :: rest else b :: insertLE le a rest

/-- Stable insertion sort: the model of Python `list.sort(key=..)`
(which is guaranteed stable; a stable sort is extensionally unique). -/
def insSortBy {α : Type} (le : α → α → Bool) : List α → List α
  | [] => []
  | a :: rest => insertLE le a (insSortBy le rest)

/-- `State` from `module2/graph.py`: a discretized equipment state,
identified by `(machine_id, sensor_bins)`.  Python defines `__eq__` and
`__hash__` on exactly this pair, so value equality of this structure is
the faithful equality. -/
structure State where
  machineId : String
  sensorBins : List String
deriving DecidableEq, Repr

/-- `HistoricalRecord` from `module2/io.py`: the canonical record format.
`time_key` (a totally ordered timestamp / runtime / sequence key) is
modelled as `Int`; `sensors` is a dict sensor name → numeric value. -/
structure HistoricalRecord where
  machineId : String
  timeKey : Int
  sensors : List (String × ℚ)
  failureLabel : Bool
deriving DecidableEq, Repr

/-- `Graph` from `module2/graph.py`.  `nodes` and `failureStates` are
Python sets, modelled as duplicate-free lists (elements appended on
first insertion); `edges` and `stateToRecords` are dicts. -/
structure Graph where
  nodes : List State
  edges : List (State × List State)
  failureStates : List State
  stateToRecords : List (State × List HistoricalRecord)
deriving DecidableEq, Repr

/-- `Graph.__init__`: the empty graph. -/
def Graph.empty : Graph := ⟨[], [], [], []⟩

/-- `Graph.add_node`: register a state as a node; create its (empty)
adjacency and record lists if missing. -/
def Graph.addNode (g : Graph) (s : State) : Graph :=
  { g with
    nodes := if s ∈ g.nodes then g.nodes else g.nodes ++ [s]
    edges := if (alookup g.edges s).isSome then g.edges else g.edges ++ [(s, [])]
    stateToRecords :=
      if (alookup g.stateToRecords s).isSome then g.stateToRecords
      else g.stateToRecords ++ [(s, [])] }

/-- `Graph.add_edge`: add a directed edge, registering both endpoints;
a duplicate successor is suppressed (`if to_state not in ...`). -/
def Graph.addEdge (g : Graph) (a b : State) : Graph :=
  let g₁ := (g.addNode a).addNode b
  let cur := (alookup g₁.edges a).getD []
  if b ∈ cur then g₁
  else { g₁ with edges := alistSet g₁.edges a (cur ++ [b]) }

/-- `Graph.mark_failure_state`. -/
def Graph.markFailureState (g : Graph) (s : State) : Graph :=
  let g₁ := g.addNode s
  { g₁ with failureStates := listInsert g₁.failureStates s }

/-- `Graph.get_neighbors`: the successor list of a state (`[]` when the
state is unknown, mirroring `self.edges.get(state, [])`). -/
def Graph.getNeighbors (g : Graph) (s : State) : List State :=
  (alookup g.edges s).getD []

/-- `Graph.is_failure_state`. -/
def Graph.isFailureState (g : Graph) (s : State) : Bool :=
  decide (s ∈ g.failureStates)

/-- The number of positions at which two bin tuples differ
(`sum(1 for b1, b2 in zip(...) if b1 != b2)`). -/
def countDiffs (l₁ l₂ : List String) : Nat :=
  ((l₁.zip l₂).filter (fun p => p.1 ≠ p.2)).length

/-- `states_differ_by_one` from `module2/graph.py`. -/
def statesDifferByOne (s₁ s₂ : State) (ignoreMachineId : Bool) : Bool :=
  if ¬ignoreMachineId ∧ s₁.machineId ≠ s₂.machineId then false
  else if s₁.sensorBins.length ≠ s₂.sensorBins.length then false
  else decide (countDiffs s₁.sensorBins s₂.sensorBins = 1)

/-- Outcome of `DiscretizationConfig.get_bin`: a label, a Python
`ValueError` (value below the minimum boundary) or a Python
`IndexError` (a label index that does not exist). -/
inductive BinResult where
  | ok (label : String)
  | valueError
  | indexError
deriving DecidableEq, Repr

/-- The scanning loop of `get_bin`: the first interval index `i` (offset
by the accumulator) with `bins[i] <= v < bins[i+1]`. -/
def findIntervalIdxAux (v : ℚ) : List ℚ → Nat → Option Nat
  | b₁ :: b₂ :: rest, i =>
    if b₁ ≤ v ∧ v < b₂ then some i else findIntervalIdxAux v (b₂ :: rest) (i + 1)
  | _, _ => none

/-- `DiscretizationConfig` from `module2/config.py`. -/
structure DiscretizationConfig where
  bins : List ℚ
  labels : List String
deriving DecidableEq, Repr

/-- `DiscretizationConfig.get_bin`: scan the intervals in order and
return the first matching label; above the last boundary return the last
label; below the first boundary raise `ValueError`.  An out-of-range
label subscript (`labels[i]` or `labels[-1]` missing, or `bins[-1]` on
an empty `bins`) is a Python `IndexError`. -/
def DiscretizationConfig.getBin (c : DiscretizationConfig) (v : ℚ) : BinResult :=
  match findIntervalIdxAux v c.bins 0 with
  | some i =>
    match c.labels.get? i with
    | some l => .ok l
    | none => .indexError
  | none =>
    match c.bins.getLast? with
    | some last =>
      if last ≤ v then
        match c.labels.getLast? with
        | some l => .ok l
        | none => .indexError
      else .valueError
    | none => .indexError

/-- `GraphConfig` from `module2/config.py`.  `discretization` is a dict
sensor name → scheme.  `GraphConfig.from_json` merely builds this
structure from the parsed JSON fields — it performs no validation of
bins/labels lengths or of state-component names, so construction is
total. -/
structure GraphConfig where
  discretization : List (String × DiscretizationConfig)
  stateComponents : List String
deriving DecidableEq, Repr

/-- Inner loop of `GraphConfig.discretize_sensors`: iterate the
`discretization` dict; a sensor absent from the input is skipped; a
`ValueError` from `get_bin` is caught and the sensor skipped; an
`IndexError` is NOT caught and escapes. -/
def discretizeSensorsAux (sensorValues : List (String × ℚ)) :
    List (String × DiscretizationConfig) → Except Unit (List (String × String))
  | [] => .ok []
  | (name, c) :: rest =>
    match alookup sensorValues name with
    | none => discretizeSensorsAux sensorValues rest
    | some v =>
      match c.getBin v with
      | .ok l => (discretizeSensorsAux sensorValues rest).map (fun r => (name, l) :: r)
      | .valueError => discretizeSensorsAux sensorValues rest
      | .indexError => .error ()

/-- `GraphConfig.discretize_sensors`. -/
def GraphConfig.discretizeSensors (cfg : GraphConfig) (sensorValues : List (String × ℚ)) :
    Except Unit (List (String × String)) :=
  discretizeSensorsAux sensorValues cfg.discretization

/-- The state-bin tuple of a record inside `build_graph`:
`tuple(discretized.get(sensor, "unknown") for sensor in state_components)`. -/
def stateBinsOf (cfg : GraphConfig) (discretized : List (String × String)) : List String :=
  cfg.stateComponents.map (fun c => (alookup discretized c).getD "unknown")

/-- The `State` a record discretizes to inside `build_graph` (either
pass); propagates an uncaught `IndexError` from discretization. -/
def stateOf (cfg : GraphConfig) (machineId : String) (r : HistoricalRecord) :
    Except Unit State :=
  (cfg.discretizeSensors r.sensors).map (fun disc => ⟨machineId, stateBinsOf cfg disc⟩)

/-- Grouping of records by machine id inside `build_graph`
(`machine_records`), a dict in first-occurrence order, each group in
input order. -/
def groupByMachine (records : List HistoricalRecord) : List (String × List HistoricalRecord) :=
  records.foldl
    (fun acc r =>
      match alookup acc r.machineId with
      | some l => alistSet acc r.machineId (l ++ [r])
      | none => acc ++ [(r.machineId, [r])])
    []

/-- `has_temporal_data`: at least one machine contributes more than one
record. -/
def hasTemporalData (groups : List (String × List HistoricalRecord)) : Bool :=
  groups.any (fun p => 1 < p.2.length)

/-- `machine_record_list.sort(key=lambda r: r.time_key)`: stable sort by
time key. -/
def sortRecords (l : List HistoricalRecord) : List HistoricalRecord :=
  insSortBy (fun r₁ r₂ => decide (r₁.timeKey ≤ r₂.timeKey)) l

/-- First pass of `build_graph` for one record: discretize, build the
state (value equality makes the "reuse existing state object" scan a
no-op), register the node, attach the record, and mark a failure state
when the record's failure flag is set.  The dead locals `all_states` and
`state_to_record` of the source are never read afterwards and are not
modelled. -/
def registerRecord (cfg : GraphConfig) (machineId : String) (g : Graph)
    (r : HistoricalRecord) : Except Unit Graph :=
  (stateOf cfg machineId r).map (fun st =>
    let g₁ := g.addNode st
    let g₂ := { g₁ with
      stateToRecords :=
        alistSet g₁.stateToRecords st (((alookup g₁.stateToRecords st).getD []) ++ [r]) }
    if r.failureLabel then g₂.markFailureState st else g₂)

/-- Temporal mode: `for i in range(len(states) - 1): add_edge(states[i],
states[i+1])`. -/
def addConsecutiveEdges (g : Graph) (states : List State) : Graph :=
  (states.zip states.tail).foldl (fun acc p => acc.addEdge p.1 p.2) g

/-- `max_neighbors_per_state` in similarity mode. -/
def maxNeighborsPerState : Nat := 20

/-- Similarity-mode inner loop over candidate targets for one source
state: skip the source itself, stop (`break`) once the per-source cap is
reached, add an edge for each Hamming-distance-1 candidate. -/
def simInner (s₁ : State) : Graph → Nat → List State → Graph
  | g, _, [] => g
  | g, found, s₂ :: rest =>
    if s₂ = s₁ then simInner s₁ g found rest
    else if maxNeighborsPerState ≤ found then g
    else if statesDifferByOne s₁ s₂ true then simInner s₁ (g.addEdge s₁ s₂) (found + 1) rest
    else simInner s₁ g found rest

/-- Similarity mode over an enumeration of the node set (`states_list =
list(graph.nodes)`; Python set iteration order is arbitrary, so the
enumeration is passed explicitly where theorems need to quantify over
it). -/
def similarityPass (g : Graph) (statesList : List State) : Graph :=
  statesList.foldl (fun acc s₁ => simInner s₁ acc 0 statesList) g

/-- `build_graph` from `module2/graph.py`.  Groups records per machine,
sorts each group by time key, registers all states (first pass), then
adds edges in temporal mode when some machine has more than one record,
else in similarity mode over the node set.  An uncaught `IndexError`
from discretization (mismatched bins/labels) escapes as `.error`. -/
def buildGraph (records : List HistoricalRecord) (cfg : GraphConfig) : Except Unit Graph := do
  let groups := (groupByMachine records).map (fun p => (p.1, sortRecords p.2))
  let g ← groups.foldlM
    (fun g p => p.2.foldlM (registerRecord cfg p.1) g) Graph.empty
  if hasTemporalData groups then
    groups.foldlM
      (fun g p => do
        let sts ← p.2.mapM (stateOf cfg p.1)
        pure (addConsecutiveEdges g sts))
      g
  else
    pure (similarityPass g g.nodes)

/-- `SearchNode` from `module2/search.py` (costs are Python floats,
modelled as `ℚ`; both default to `0.0`). -/
structure SearchNode where
  state : State
  path : List State
  cost : ℚ
  heuristicCost : ℚ
deriving DecidableEq, Repr

/-- `SearchNode.total_cost`. -/
def SearchNode.totalCost (n : SearchNode) : ℚ := n.cost + n.heuristicCost

/-- A fresh node for a neighbor during expansion (`SearchNode(neighbor,
node.path + [neighbor])`, costs defaulted). -/
def expandNode (node : SearchNode) (nb : State) : SearchNode :=
  ⟨nb, node.path ++ [nb], 0, 0⟩

/-- The `while` loop of `bfs`, with explicit fuel.  The queue is FIFO
(pop at the head, append expansions at the tail); `visited_at_depth`
holds `(state, depth)` pairs. -/
def bfsLoop (g : Graph) (goal : State → Bool) (maxDepth maxPaths : Nat) :
    Nat → List SearchNode → List (State × Nat) → List (List State) →
    Option (List (List State))
  | 0, _, _, _ => none
  | fuel + 1, queue, visitedAtDepth, paths =>
    match queue with
    | [] => some paths
    | node :: rest =>
      if maxPaths ≤ paths.length then some paths
      else
        let depth := node.path.length - 1
        if maxDepth ≤ depth then bfsLoop g goal maxDepth maxPaths fuel rest visitedAtDepth paths
        else if (node.state, depth) ∈ visitedAtDepth then
          bfsLoop g goal maxDepth maxPaths fuel rest visitedAtDepth paths
        else
          let vis := visitedAtDepth ++ [(node.state, depth)]
          if goal node.state then
            let paths₂ := paths ++ [node.path]
            if maxPaths ≤ paths₂.length then some paths₂
            else bfsLoop g goal maxDepth maxPaths fuel rest vis paths₂
          else
            bfsLoop g goal maxDepth maxPaths fuel
              (rest ++ (g.getNeighbors node.state).map (expandNode node)) vis paths

/-- `bfs` from `module2/search.py` (fuel-indexed; `some` is a completed
run of the Python loop). -/
def bfs (g : Graph) (startState : State) (goal : State → Bool)
    (maxDepth maxPaths fuel : Nat) : Option (List (List State)) :=
  bfsLoop g goal maxDepth maxPaths fuel [⟨startState, [startState], 0, 0⟩] [] []

/-- The `while` loop of `dfs`.  The stack is LIFO; Python pushes
`reversed(neighbors)` at the list end and pops from the end, which is
the same pop order as prepending `neighbors` in order to a head-popped
stack.  Note the source adds the current state to `visited_in_path` and
removes it again in the same iteration (on the goal branch and right
after pushing the children), exactly as transcribed here. -/
def dfsLoop (g : Graph) (goal : State → Bool) (maxDepth : Nat) :
    Nat → List SearchNode → List State → List (List State) →
    Option (List (List State))
  | 0, _, _, _ => none
  | fuel + 1, stack, visitedInPath, paths =>
    match stack with
    | [] => some paths
    | node :: rest =>
      let depth := node.path.length - 1
      if maxDepth ≤ depth then dfsLoop g goal maxDepth fuel rest visitedInPath paths
      else if node.state ∈ visitedInPath then dfsLoop g goal maxDepth fuel rest visitedInPath paths
      else
        let vis₁ := listInsert visitedInPath node.state
        if goal node.state then
          dfsLoop g goal maxDepth fuel rest (listRemove vis₁ node.state) (paths ++ [node.path])
        else
          dfsLoop g goal maxDepth fuel
            ((g.getNeighbors node.state).map (expandNode node) ++ rest)
            (listRemove vis₁ node.state) paths

/-- `dfs` from `module2/search.py`. -/
def dfs (g : Graph) (startState : State) (goal : State → Bool)
    (maxDepth fuel : Nat) : Option (List (List State)) :=
  dfsLoop g goal maxDepth fuel [⟨startState, [startState], 0, 0⟩] [] []

/-- `heuristic_time_to_failure`: `0.0` at a failure state, else the
constant estimate `1.0`. -/
def heuristicTimeToFailure (s : State) (_g : Graph) (failureStates : List State) : ℚ :=
  if s ∈ failureStates then 0 else 1

/-- Specification of `heapq.heappop` on the open list: popping an empty
heap is impossible (`while open_set`), and a pop returns some element of
minimal `total_cost` (`SearchNode.__lt__`) together with the rest.  The
tie order among equal keys is deliberately left unspecified, covering
the binary-heap order actually used. -/
def MinPopSpec (pop : List SearchNode → Option (SearchNode × List SearchNode)) : Prop :=
  pop [] = none ∧
  (∀ l, l ≠ [] → (pop l).isSome) ∧
  (∀ l n rest, pop l = some (n, rest) →
    List.Perm (n :: rest) l ∧ ∀ m ∈ l, n.totalCost ≤ m.totalCost)

/-- An executable min-pop: remove the leftmost element of minimal total
cost.  One admissible instance of `MinPopSpec`. -/
def popMinImpl : List SearchNode → Option (SearchNode × List SearchNode)
  | [] => none
  | n :: rest =>
    match popMinImpl rest with
    | none => some (n, [])
    | some (m, restRest) =>
      if n.totalCost ≤ m.totalCost then some (n, rest) else some (m, n :: restRest)

/-- One neighbor step of the `a_star` expansion loop: for a non-visited
neighbor, `tentative_g = g_score[current] + 1.0`; push (and update
`g_score`) when the neighbor has no score yet or the tentative score
improves it. -/
def aStarPush (g : Graph) (h : State → Graph → List State → ℚ) (w : ℚ)
    (failureStates : List State) (node : SearchNode) (visited : List State)
    (acc : List SearchNode × List (State × ℚ)) (nb : State) :
    List SearchNode × List (State × ℚ) :=
  if nb ∈ visited then acc
  else
    let tentative := ((alookup acc.2 node.state).getD 0) + 1
    let push : Bool :=
      match alookup acc.2 nb with
      | some old => decide (tentative < old)
      | none => true
    if push then
      (acc.1 ++ [⟨nb, node.path ++ [nb], tentative, h nb g failureStates * w⟩],
       alistSet acc.2 nb tentative)
    else acc

/-- Neighbor expansion of `a_star` (the `for neighbor in neighbors`
loop). -/
def aStarExpand (g : Graph) (h : State → Graph → List State → ℚ) (w : ℚ)
    (failureStates : List State) (node : SearchNode) (visited : List State)
    (acc : List SearchNode × List (State × ℚ)) : List SearchNode × List (State × ℚ) :=
  (g.getNeighbors node.state).foldl (aStarPush g h w failureStates node visited) acc

/-- The `while` loop of `a_star`, parametrized by the heap pop. -/
def aStarLoop (g : Graph) (goal : State → Bool) (h : State → Graph → List State → ℚ)
    (w : ℚ) (maxDepth : Nat) (failureStates : List State)
    (pop : List SearchNode → Option (SearchNode × List SearchNode)) :
    Nat → List SearchNode → List (State × ℚ) → List State →
    Option (Option (List State))
  | 0, _, _, _ => none
  | fuel + 1, openSet, gScore, visited =>
    match pop openSet with
    | none => some none
    | some (node, rest) =>
      if node.state ∈ visited then
        aStarLoop g goal h w maxDepth failureStates pop fuel rest gScore visited
      else
        let visited₂ := visited ++ [node.state]
        if maxDepth ≤ node.path.length - 1 then
          aStarLoop g goal h w maxDepth failureStates pop fuel rest gScore visited₂
        else if goal node.state then some (some node.path)
        else
          let st := aStarExpand g h w failureStates node visited₂ (rest, gScore)
          aStarLoop g goal h w maxDepth failureStates pop fuel st.1 st.2 visited₂

/-- `a_star` from `module2/search.py`: `failure_states =
graph.failure_states`, open set seeded with the start node (costs `0`),
`g_score = {start: 0.0}`, empty closed set. -/
def aStar (g : Graph) (startState : State) (goal : State → Bool)
    (h : State → Graph → List State → ℚ) (maxDepth : Nat) (w : ℚ)
    (pop : List SearchNode → Option (SearchNode × List SearchNode))
    (fuel : Nat) : Option (Option (List State)) :=
  aStarLoop g goal h w maxDepth g.failureStates pop fuel
    [⟨startState, [startState], 0, 0⟩] [(startState, 0)] []

/-- The candidate-start-state set computed by
`discover_failure_sequences` (lines 298–304): for every failure state,
every non-failure successor (`graph.get_neighbors(failure_state)`) is
added to the set. -/
def discoverStartStates (g : Graph) : List State :=
  g.failureStates.foldl
    (fun acc f =>
      (g.getNeighbors f).foldl
        (fun acc nb => if g.isFailureState nb then acc else listInsert acc nb)
        acc)
    []

/-- The non-failure nodes of the graph (`non_failure_states`). -/
def nonFailureStates (g : Graph) : List State :=
  g.nodes.filter (fun s => !(g.isFailureState s))

/-- Start-state selection of `discover_failure_sequences` including the
sparse-graph fallback; `random.sample` is modelled by an explicit
`sample` function (the ambient randomness source), called with the
population and `min(100, len(population))`. -/
def discoverStartStatesFull (g : Graph)
    (sample : List State → Nat → List State) : List State :=
  let startStates := discoverStartStates g
  if startStates.isEmpty then
    let nf := nonFailureStates g
    sample nf (min 100 nf.length)
  else startStates

/-- `FailureSequence` from `module2/patterns.py` (`machines` is a set of
machine ids, modelled as a duplicate-free list). -/
structure FailureSequence where
  sequence : List State
  frequency : Nat
  machines : List String
  avgTimeToFailure : ℚ
deriving DecidableEq, Repr

/-- `Counter[sequence] += 1` on an insertion-ordered counter. -/
def bumpSeq : List (List State × Nat) → List State → List (List State × Nat)
  | [], s => [(s, 1)]
  | (k, c) :: rest, s => if s = k then (k, c + 1) :: rest else (k, c) :: bumpSeq rest s

/-- `sequence_to_machines[sequence].add(machine_id)` on a defaultdict of
sets. -/
def addMachineFor (m : List (List State × List String)) (s : List State)
    (machineId : String) : List (List State × List String) :=
  alistSet m s (listInsert ((alookup m s).getD []) machineId)

/-- One iteration of the counting loop of `extract_sequences`: drop a
path shorter than `min_pattern_length`, else strip the terminal state
(`path[:-1]`), bump the counter and record the originating machine
(from `path[0].machine_id`, guarded by `if path:`). -/
def extractStep (minLen : Nat)
    (acc : List (List State × Nat) × List (List State × List String))
    (p : List State) : List (List State × Nat) × List (List State × List String) :=
  if p.length < minLen then acc
  else
    (bumpSeq acc.1 p.dropLast,
     match p.head? with
     | some st => addMachineFor acc.2 p.dropLast st.machineId
     | none => acc.2)

/-- The counting phase of `extract_sequences` over the whole batch. -/
def extractCounts (paths : List (List State)) (minLen : Nat) :
    List (List State × Nat) × List (List State × List String) :=
  paths.foldl (extractStep minLen) ([], [])

/-- The kept, stripped sequences of a path batch: `path[:-1]` of every
path of length at least `min_pattern_length`, in batch order. -/
def keptSeqs (paths : List (List State)) (minLen : Nat) : List (List State) :=
  (paths.filter (fun p => !(decide (p.length < minLen)))).map (fun p => p.dropLast)

/-- `extract_sequences` from `module2/patterns.py`: build a
`FailureSequence` per counted group (avg time-to-failure fixed at `0.0`)
and sort descending by frequency (stable). -/
def extractSequences (paths : List (List State)) (minPatternLength : Nat) :
    List FailureSequence :=
  let tally := extractCounts paths minPatternLength
  let seqs := tally.1.map
    (fun p => FailureSequence.mk p.1 p.2 ((alookup tally.2 p.1).getD []) 0)
  insSortBy (fun a b => decide (b.frequency ≤ a.frequency)) seqs

/-- `WarningSign` from `module2/patterns.py`. -/
structure WarningSign where
  pattern : String
  predictiveScore : ℚ
  frequency : Nat
  falsePositiveRate : ℚ
deriving DecidableEq, Repr

/-- Python `repr` of a one-character string quote (avoids a literal
quote character). -/
def pyQuote (s : String) : String :=
  String.singleton (Char.ofNat 39) ++ s ++ String.singleton (Char.ofNat 39)

/-- Python `str` of a tuple of strings, as interpolated by the f-string
building the pattern description. -/
def pyTupleRepr (l : List String) : String :=
  match l with
  | [] => "()"
  | [x] => "(" ++ pyQuote x ++ ",)"
  | _ => "(" ++ String.intercalate ", " (l.map pyQuote) ++ ")"

/-- One warning sign per failure sequence in `rank_warning_signs`:
description from first/last state and length, predictive score
`min(frequency / 10.0, 1.0)`, false-positive rate fixed at `0.0`. -/
def mkWarningSign (s : FailureSequence) : WarningSign :=
  let pattern :=
    match s.sequence.head?, s.sequence.getLast? with
    | some first, some last =>
      "State transition: " ++ pyTupleRepr first.sensorBins ++ " -> " ++
        pyTupleRepr last.sensorBins ++ " (" ++ toString s.sequence.length ++ " steps)"
    | _, _ => "Empty sequence"
  { pattern := pattern
    predictiveScore := min ((s.frequency : ℚ) / 10) 1
    frequency := s.frequency
    falsePositiveRate := 0 }

/-- `rank_warning_signs` from `module2/patterns.py`: map then sort
descending by predictive score (stable). -/
def rankWarningSigns (seqs : List FailureSequence) : List WarningSign :=
  insSortBy (fun a b => decide (b.predictiveScore ≤ a.predictiveScore))
    (seqs.map mkWarningSign)

/-- Total number of directed edges of a graph
(`sum(len(neighbors) for neighbors in g.edges.values())`). -/
def edgeCount (g : Graph) : Nat :=
  (g.edges.map (fun p => p.2.length)).sum

/-- A list of states is a valid search result path: it starts at the
start state, every consecutive pair follows the adjacency relation, and
its final state satisfies the goal predicate. -/
def ValidPath (g : Graph) (startState : State) (goal : State → Bool)
    (p : List State) : Prop :=
  p.head? = some startState ∧
  List.Chain' (fun a b => b ∈ g.getNeighbors a) p ∧
  ∃ lastSt, p.getLast? = some lastSt ∧ goal lastSt = true

/-- Invariant of every node held in a search container: its path is a
nonempty adjacency chain from the start state ending at the node's own
state. -/
def SearchInv (g : Graph) (startState : State) (n : SearchNode) : Prop :=
  n.path ≠ [] ∧ n.path.head? = some startState ∧
  List.Chain' (fun a b => b ∈ g.getNeighbors a) n.path ∧
  n.path.getLast? = some n.state

/-- The graph has a unique shortest valid path `P` from the start to a
goal state: `P` is valid, no valid path is shorter, and any valid path
of the same length is `P` itself. -/
def UniqueShortestPath (g : Graph) (startState : State) (goal : State → Bool)
    (P : List State) : Prop :=
  ValidPath g startState goal P ∧
  ∀ q, ValidPath g startState goal q →
    P.length ≤ q.length ∧ (q.length = P.length → q = P)

/-- Cost bookkeeping invariant of a single A* node (for the run of
`a_star` with `heuristic_time_to_failure` and weight `1.0`): its path is
a valid chain (`SearchInv`), costs are nonnegative, the path never has
more than `cost + 1` states, and its heuristic cost is either the
heuristic value of its state or the zero default of the initial node. -/
def NodeCostOk (g : Graph) (startState : State) (n : SearchNode) : Prop :=
  SearchInv g startState n ∧
  0 ≤ n.cost ∧ 0 ≤ n.heuristicCost ∧
  (n.path.length : ℚ) ≤ n.cost + 1 ∧
  (n.heuristicCost = heuristicTimeToFailure n.state g g.failureStates ∨
    (n.cost = 0 ∧ n.heuristicCost = 0))

/-- Invariant tying the `g_score` dictionary to the open set of `a_star`:
every open node is cost-sound, scores are nonnegative, every scored
unvisited state keeps a best open node carrying exactly its score, and
every open node is scored at most at its own cost. -/
def ScoreInv (g : Graph) (startState : State) (openSet : List SearchNode)
    (gs : List (State × ℚ)) (visited : List State) : Prop :=
  (∀ n ∈ openSet, NodeCostOk g startState n) ∧
  (∀ s v, alookup gs s = some v → 0 ≤ v) ∧
  (∀ s v, alookup gs s = some v → s ∉ visited →
    ∃ b ∈ openSet, b.state = s ∧ b.cost = v) ∧
  (∀ n ∈ openSet, ∃ v, alookup gs n.state = some v ∧ v ≤ n.cost)

/-- Progress invariant of `a_star` along a fixed path `P`: some prefix
end `P.get i` is carried by an open node of cost at most `i`, and no
state of `P` from position `i` on has been closed yet. -/
def WitnessInv (g : Graph) (P : List State) (openSet : List SearchNode)
    (visited : List State) : Prop :=
  ∃ i : Nat, ∃ hi : i < P.length,
    (∃ n ∈ openSet, n.state = P.get ⟨i, hi⟩ ∧ n.cost ≤ (i : ℚ)) ∧
    ∀ j, i ≤ j → ∀ hj : j < P.length, P.get ⟨j, hj⟩ ∉ visited

/-- Modelled from the spec words of the claim under test: the candidate
start states as "all non-failure predecessors-by-adjacency of every
failure state (states with a direct edge INTO a failure state)" — to be
compared with `discoverStartStates`, which the source computes from
`get_neighbors(failure_state)` (successors). -/
def specPredecessorCandidates (g : Graph) : List State :=
  g.nodes.filter
    (fun s => !(g.isFailureState s) &&
      g.failureStates.any (fun f => decide (f ∈ g.getNeighbors s)))

/-- Concrete sample states used by the concrete instances below. -/
def sA : State := ⟨"M", ["a"]⟩

def sB : State := ⟨"M", ["b"]⟩

def sC : State := ⟨"M", ["c"]⟩

def sF : State := ⟨"M", ["f"]⟩

/-- Concrete graph with the cycle `A → B → A` and the exit `B → F`,
`F` a failure state. -/
def gCyc : Graph :=
  (((Graph.empty.addEdge sA sB).addEdge sB sA).addEdge sB sF).markFailureState sF

/-- Concrete graph with `A → F` and `F → B`, `F` a failure state: the
predecessor of `F` is `A`, its successor is `B`. -/
def gC1 : Graph :=
  ((Graph.empty.addEdge sA sF).addEdge sF sB).markFailureState sF

/-- Concrete chain `A → B → F` with failure state `F`. -/
def gChain : Graph :=
  ((Graph.empty.addEdge sA sB).addEdge sB sF).markFailureState sF

/-- Concrete graph with a single edge `A → B` and an unconnected failure
state `C`: no path from `A` reaches a failure state. -/
def gNoPath : Graph :=
  (Graph.empty.addEdge sA sB).markFailureState sC

/-- Concrete one-edge graph `A → F`, `F` a failure state: its unique
valid path from `A` to a failure state is `[A, F]`. -/
def gUniq : Graph :=
  (Graph.empty.addEdge sA sF).markFailureState sF

/-- A deterministic stand-in for `random.sample`: the first `n` elements
of the population (one admissible sampler). -/
def takeSample (l : List State) (n : Nat) : List State := l.take n

/-- Concrete configuration whose single state component `T` is absent
from the (empty) discretization map. -/
def cfgUnknownComp : GraphConfig := ⟨[], ["T"]⟩

/-- Concrete configuration with mismatched bins/labels lengths for `T`
(three boundaries but a single label). -/
def cfgMismatched : GraphConfig := ⟨[("T", ⟨[0, 10, 20], ["lo"]⟩)], ["T"]⟩

/-- A concrete record for machine `M1` with sensor `T = 15`. -/
def recT15 : HistoricalRecord := ⟨"M1", 0, [("T", 15)], false⟩

/-- Concrete well-formed configuration binning `T` into three intervals. -/
def cfgT : GraphConfig := ⟨[("T", ⟨[0, 30, 50, 100], ["low", "med", "high"]⟩)], ["T"]⟩

/-- Three time-ordered records of one machine, the last a failure. -/
def recsTemporal : List HistoricalRecord :=
  [⟨"M1", 0, [("T", 10)], false⟩, ⟨"M1", 1, [("T", 40)], false⟩,
   ⟨"M1", 2, [("T", 80)], true⟩]

/-- Two machines with one record each (similarity-mode batch). -/
def recsSingle : List HistoricalRecord :=
  [⟨"M1", 0, [("T", 10)], false⟩, ⟨"M2", 0, [("T", 80)], true⟩]

/-- The graph the pipeline builds from the similarity-mode batch. -/
def gSimilar : Graph :=
  match buildGraph recsSingle cfgT with
  | Except.ok g => g
  | Except.error _ => Graph.empty

/-- The graph the pipeline builds from the temporal batch. -/
def gTemporal : Graph :=
  match buildGraph recsTemporal cfgT with
  | Except.ok g => g
  | Except.error _ => Graph.empty

/-! ### Generic lemmas about the sorting and dictionary models -/

theorem insertLE_perm {α : Type} (le : α → α → Bool) (a : α) (l : List α) :
    List.Perm (insertLE le a l) (a :: l) := by
  induction l with
  | nil => exact List.Perm.refl _
  | cons b rest ih =>
    by_cases h : le a b = true
    · simp [insertLE, h]
    · simp only [insertLE, h, if_false]
      exact (ih.cons b).trans (List.Perm.swap a b rest)

theorem insSortBy_perm {α : Type} (le : α → α → Bool) (l : List α) :
    List.Perm (insSortBy le l) l := by
  induction l with
  | nil => exact List.Perm.refl _
  | cons a rest ih =>
    exact (insertLE_perm le a (insSortBy le rest)).trans (ih.cons a)

theorem pairwise_insertLE {α : Type} (le : α → α → Bool)
    (htrans : ∀ x y z, le x y = true → le y z = true → le x z = true)
    (htot : ∀ x y, le x y = true ∨ le y x = true) (a : α) (l : List α)
    (h : l.Pairwise (fun x y => le x y = true)) :
    (insertLE le a l).Pairwise (fun x y => le x y = true) := by
  induction l with
  | nil => simp [insertLE]
  | cons b rest ih =>
    obtain ⟨hb, hrest⟩ := List.pairwise_cons.mp h
    by_cases hab : le a b = true
    · simp only [insertLE, hab, if_true]
      refine List.pairwise_cons.mpr ⟨?_, h⟩
      intro x hx
      rcases List.mem_cons.mp hx with rfl | hx
      · exact hab
      · exact htrans a b x hab (hb x hx)
    · simp only [insertLE, hab, if_false]
      refine List.pairwise_cons.mpr ⟨?_, ih hrest⟩
      intro x hx
      rcases List.mem_cons.mp ((insertLE_perm le a rest).mem_iff.mp hx) with rfl | hx
      · rcases htot x b with h1 | h2
        · exact absurd h1 hab
        · exact h2
      · exact hb x hx

theorem pairwise_insSortBy {α : Type} (le : α → α → Bool)
    (htrans : ∀ x y z, le x y = true → le y z = true → le x z = true)
    (htot : ∀ x y, le x y = true ∨ le y x = true) (l : List α) :
    (insSortBy le l).Pairwise (fun x y => le x y = true) := by
  induction l with
  | nil => simp [insSortBy]
  | cons a rest ih => exact pairwise_insertLE le htrans htot a _ ih

theorem filter_insertLE_neg {α : Type} (p : α → Bool) (le : α → α → Bool)
    (a : α) (l : List α) (ha : p a = false) :
    (insertLE le a l).filter p = l.filter p := by
  induction l with
  | nil => simp [insertLE, ha]
  | cons b rest ih =>
    by_cases hab : le a b = true
    · simp [insertLE, hab, List.filter_cons, ha]
    · simp [insertLE, hab, List.filter_cons, ih]

theorem filter_insertLE_pos {α : Type} (p : α → Bool) (le : α → α → Bool)
    (a : α) (l : List α) (ha : p a = true)
    (hp : ∀ x, p x = true → le a x = true) :
    (insertLE le a l).filter p = a :: l.filter p := by
  induction l with
  | nil => simp [insertLE, ha]
  | cons b rest ih =>
    by_cases hab : le a b = true
    · simp [insertLE, hab, List.filter_cons, ha]
    · have hb : p b = false := by
        cases hpb : p b with
        | false => rfl
        | true => exact absurd (hp b hpb) hab
      simp [insertLE, hab, List.filter_cons, hb, ih]

theorem filter_insSortBy {α : Type} (p : α → Bool) (le : α → α → Bool)
    (hp : ∀ x y, p x = true → p y = true → le x y = true) (l : List α) :
    (insSortBy le l).filter p = l.filter p := by
  induction l with
  | nil => rfl
  | cons a rest ih =>
    by_cases ha : p a = true
    · rw [insSortBy, filter_insertLE_pos p le a _ ha (fun x hx => hp a x ha hx), ih]
      simp [List.filter_cons, ha]
    · have ha' : p a = false := by
        cases hpa : p a with
        | false => rfl
        | true => exact absurd hpa ha
      rw [insSortBy, filter_insertLE_neg p le a _ ha', ih]
      simp [List.filter_cons, ha']

theorem insSortBy_eq_self {α : Type} (le : α → α → Bool) (l : List α)
    (h : l.Pairwise (fun x y => le x y = true)) : insSortBy le l = l := by
  induction l with
  | nil => rfl
  | cons a rest ih =>
    obtain ⟨ha, hrest⟩ := List.pairwise_cons.mp h
    rw [insSortBy, ih hrest]
    cases rest with
    | nil => rfl
    | cons b rest₂ => simp [insertLE, ha b (by simp)]

theorem alookup_alistSet_self {α β : Type} [DecidableEq α]
    (l : List (α × β)) (k : α) (v : β) :
    alookup (alistSet l k v) k = some v := by
  induction l with
  | nil => simp [alistSet, alookup]
  | cons p rest ih =>
    obtain ⟨k₀, v₀⟩ := p
    by_cases h : k = k₀
    · simp [alistSet, h, alookup]
    · simp [alistSet, h, alookup, ih]

theorem alookup_alistSet_ne {α β : Type} [DecidableEq α]
    (l : List (α × β)) (k : α) (v : β) (a : α) (h : a ≠ k) :
    alookup (alistSet l k v) a = alookup l a := by
  induction l with
  | nil => simp [alistSet, alookup, h]
  | cons p rest ih =>
    obtain ⟨k₀, v₀⟩ := p
    by_cases hk : k = k₀
    · subst hk
      simp [alistSet, alookup, h]
    · by_cases ha : a = k₀
      · simp [alistSet, hk, alookup, ha]
      · simp [alistSet, hk, alookup, ha, ih]

theorem alookup_append_some {α β : Type} [DecidableEq α]
    (l₁ l₂ : List (α × β)) (a : α) (v : β) (h : alookup l₁ a = some v) :
    alookup (l₁ ++ l₂) a = some v := by
  induction l₁ with
  | nil => simp [alookup] at h
  | cons p rest ih =>
    obtain ⟨k₀, v₀⟩ := p
    by_cases ha : a = k₀
    · simp [alookup, ha] at h ⊢
      exact h
    · simp [alookup, ha] at h ⊢
      exact ih h

theorem alookup_append_none {α β : Type} [DecidableEq α]
    (l₁ l₂ : List (α × β)) (a : α) (h : alookup l₁ a = none) :
    alookup (l₁ ++ l₂) a = alookup l₂ a := by
  induction l₁ with
  | nil => rfl
  | cons p rest ih =>
    obtain ⟨k₀, v₀⟩ := p
    by_cases ha : a = k₀
    · simp [alookup, ha] at h
    · simp [alookup, ha] at h ⊢
      exact ih h

theorem alookup_some_mem {α β : Type} [DecidableEq α]
    {l : List (α × β)} {a : α} {v : β} (h : alookup l a = some v) :
    (a, v) ∈ l := by
  induction l with
  | nil => simp [alookup] at h
  | cons p rest ih =>
    obtain ⟨k₀, v₀⟩ := p
    by_cases ha : a = k₀
    · simp [alookup, ha] at h
      simp [ha, h]
    · simp [alookup, ha] at h
      exact List.mem_cons_of_mem _ (ih h)

theorem alookup_of_mem_nodupKeys {α β : Type} [DecidableEq α]
    {l : List (α × β)} {a : α} {v : β} (hmem : (a, v) ∈ l)
    (hnd : (l.map Prod.fst).Nodup) : alookup l a = some v := by
  induction l with
  | nil => simp at hmem
  | cons p rest ih =>
    obtain ⟨k₀, v₀⟩ := p
    simp only [List.map_cons, List.nodup_cons] at hnd
    rcases List.mem_cons.mp hmem with heq | hmem'
    · obtain ⟨h1, h2⟩ := Prod.mk.inj heq
      subst h1; subst h2
      simp [alookup]
    · have ha : a ≠ k₀ := by
        rintro rfl
        exact hnd.1 (List.mem_map_of_mem Prod.fst hmem')
      simp [alookup, ha, ih hmem' hnd.2]

theorem mem_listInsert {α : Type} [DecidableEq α] (l : List α) (a b : α) :
    b ∈ listInsert l a ↔ b = a ∨ b ∈ l := by
  by_cases h : a ∈ l
  · simp only [listInsert, if_pos h]
    constructor
    · exact Or.inr
    · rintro (rfl | hb)
      · exact h
      · exact hb
  · simp [listInsert, if_neg h, List.mem_append, or_comm]

/-! ### The sequence counter of `extract_sequences` -/

theorem bumpSeq_lookup_self (ks : List (List State × Nat)) (s : List State) :
    alookup (bumpSeq ks s) s = some (((alookup ks s).getD 0) + 1) := by
  induction ks with
  | nil => simp [bumpSeq, alookup]
  | cons p rest ih =>
    obtain ⟨k, c⟩ := p
    by_cases h : s = k
    · simp [bumpSeq, h, alookup]
    · simp [bumpSeq, h, alookup, ih]

theorem bumpSeq_lookup_ne (ks : List (List State × Nat)) (s t : List State)
    (h : t ≠ s) : alookup (bumpSeq ks s) t = alookup ks t := by
  induction ks with
  | nil => simp [bumpSeq, alookup, h]
  | cons p rest ih =>
    obtain ⟨k, c⟩ := p
    by_cases hs : s = k
    · subst hs
      simp [bumpSeq, alookup, h]
    · by_cases ht : t = k
      · simp [bumpSeq, hs, alookup, ht]
      · simp [bumpSeq, hs, alookup, ht, ih]

theorem bumpSeq_keys (ks : List (List State × Nat)) (s : List State) :
    (bumpSeq ks s).map Prod.fst =
      if s ∈ ks.map Prod.fst then ks.map Prod.fst else ks.map Prod.fst ++ [s] := by
  induction ks with
  | nil => simp [bumpSeq]
  | cons p rest ih =>
    obtain ⟨k, c⟩ := p
    by_cases h : s = k
    · simp [bumpSeq, h]
    · simp only [bumpSeq, if_neg h, List.map_cons, ih]
      by_cases hm : s ∈ rest.map Prod.fst
      · simp [hm, h]
      · simp [hm, h]

theorem bumpSeq_keys_nodup (ks : List (List State × Nat)) (s : List State)
    (h : (ks.map Prod.fst).Nodup) : ((bumpSeq ks s).map Prod.fst).Nodup := by
  rw [bumpSeq_keys]
  by_cases hm : s ∈ ks.map Prod.fst
  · simpa [hm] using h
  · simp only [if_neg hm]
    refine List.Nodup.append h (List.nodup_singleton s) ?_
    intro x hx hxs
    rw [List.mem_singleton] at hxs
    exact hm (hxs ▸ hx)

theorem extractCounts_go (minLen : Nat) :
    ∀ (paths : List (List State))
      (acc : List (List State × Nat) × List (List State × List String))
      (processed : List (List State)),
      ((acc.1.map Prod.fst).Nodup) →
      (∀ t, alookup acc.1 t =
        if t ∈ processed then some (processed.count t) else none) →
      (((paths.foldl (extractStep minLen) acc).1.map Prod.fst).Nodup) ∧
      (∀ t, alookup (paths.foldl (extractStep minLen) acc).1 t =
        if t ∈ processed ++ keptSeqs paths minLen
        then some ((processed ++ keptSeqs paths minLen).count t) else none) := by
  intro paths
  induction paths with
  | nil =>
    intro acc processed hnd hl
    simpa [keptSeqs] using ⟨hnd, hl⟩
  | cons p rest ih =>
    intro acc processed hnd hl
    have hkept : keptSeqs (p :: rest) minLen =
        if p.length < minLen then keptSeqs rest minLen
        else p.dropLast :: keptSeqs rest minLen := by
      by_cases hlen : p.length < minLen
      · simp [keptSeqs, List.filter_cons, hlen]
      · simp [keptSeqs, List.filter_cons, hlen]
    by_cases hlen : p.length < minLen
    · rw [List.foldl_cons]
      rw [show extractStep minLen acc p = acc from by simp [extractStep, hlen]]
      rw [hkept, if_pos hlen]
      exact ih acc processed hnd hl
    · have hstep : extractStep minLen acc p =
          (bumpSeq acc.1 p.dropLast,
           match p.head? with
           | some st => addMachineFor acc.2 p.dropLast st.machineId
           | none => acc.2) := by
        simp [extractStep, hlen]
      have step : ∀ t, alookup (bumpSeq acc.1 p.dropLast) t =
          if t ∈ processed ++ [p.dropLast]
          then some ((processed ++ [p.dropLast]).count t) else none := by
        intro t
        by_cases ht : t = p.dropLast
        · rw [ht, bumpSeq_lookup_self, hl p.dropLast]
          by_cases hmem : p.dropLast ∈ processed
          · simp [hmem, List.count_append]
          · simp [hmem, List.count_append, List.count_eq_zero.mpr hmem]
        · rw [bumpSeq_lookup_ne _ _ _ ht, hl t]
          by_cases hmem : t ∈ processed
          · simp [hmem, List.count_append, ht]
          · simp [hmem, List.count_append, ht]
      have hnd' := bumpSeq_keys_nodup acc.1 p.dropLast hnd
      have hres := ih (extractStep minLen acc p) (processed ++ [p.dropLast])
          (by rw [hstep]; exact hnd') (by rw [hstep]; exact step)
      rw [List.foldl_cons] at *
      rw [hkept, if_neg hlen]
      have hassoc : (processed ++ [p.dropLast]) ++ keptSeqs rest minLen =
          processed ++ (p.dropLast :: keptSeqs rest minLen) := by simp
      rw [hassoc] at hres
      exact hres

/-- Full characterization of the counter produced by `extractCounts`:
duplicate-free keys, and each key maps to its occurrence count among the
kept stripped sequences. -/
theorem extractCounts_characterization (paths : List (List State)) (minLen : Nat) :
    (((extractCounts paths minLen).1.map Prod.fst).Nodup) ∧
    (∀ t, alookup (extractCounts paths minLen).1 t =
      if t ∈ keptSeqs paths minLen
      then some ((keptSeqs paths minLen).count t) else none) := by
  have h := extractCounts_go minLen paths ([], []) []
    (by simp) (by intro t; simp [alookup])
  simpa [extractCounts] using h

theorem extractSequences_eq (paths : List (List State)) (minLen : Nat) :
    extractSequences paths minLen =
      insSortBy (fun a b => decide (b.frequency ≤ a.frequency))
        ((extractCounts paths minLen).1.map
          (fun p => FailureSequence.mk p.1 p.2
            ((alookup (extractCounts paths minLen).2 p.1).getD []) 0)) := rfl

theorem freqDesc_trans (x y z : FailureSequence)
    (h1 : decide (y.frequency ≤ x.frequency) = true)
    (h2 : decide (z.frequency ≤ y.frequency) = true) :
    decide (z.frequency ≤ x.frequency) = true := by
  simp only [decide_eq_true_eq] at *
  exact le_trans h2 h1

theorem freqDesc_total (x y : FailureSequence) :
    decide (y.frequency ≤ x.frequency) = true ∨
    decide (x.frequency ≤ y.frequency) = true := by
  simp only [decide_eq_true_eq]
  exact le_total y.frequency x.frequency

/-- C8: `extract_sequences` drops every path shorter than
`min_pattern_length`, strips the terminal (failure) state from each
remaining path, groups identical stripped sequences by value equality
with an occurrence count (`keptSeqs` is the list of kept stripped
sequences), sorts descending by count; and on the concrete batch
`[[A,B,C],[A,B,C],[A,B,C],[A,C]]` with minimum length 2 it yields
exactly the two sequences `[A,B]` with frequency 3 and `[A]` with
frequency 1, the terminal state `C` excluded from both. -/
theorem claim_C8 :
    (∀ (paths : List (List State)) (minLen : Nat),
      ((extractSequences paths minLen).map (fun f => f.sequence)).Nodup ∧
      (∀ f ∈ extractSequences paths minLen,
        f.sequence ∈ keptSeqs paths minLen ∧
        f.frequency = (keptSeqs paths minLen).count f.sequence) ∧
      (∀ s ∈ keptSeqs paths minLen,
        ∃ f ∈ extractSequences paths minLen, f.sequence = s) ∧
      (extractSequences paths minLen).Pairwise
        (fun a b => b.frequency ≤ a.frequency)) ∧
    (extractSequences [[sA, sB, sC], [sA, sB, sC], [sA, sB, sC], [sA, sC]] 2).map
        (fun f => (f.sequence, f.frequency)) = [([sA, sB], 3), ([sA], 1)] := by
  constructor
  · intro paths minLen
    obtain ⟨hnd, hl⟩ := extractCounts_characterization paths minLen
    have hperm := insSortBy_perm (fun a b : FailureSequence => decide (b.frequency ≤ a.frequency))
      ((extractCounts paths minLen).1.map
        (fun p => FailureSequence.mk p.1 p.2
          ((alookup (extractCounts paths minLen).2 p.1).getD []) 0))
    rw [← extractSequences_eq] at hperm
    refine ⟨?_, ?_, ?_, ?_⟩
    · have hmapperm := hperm.map (fun f => f.sequence)
      rw [List.map_map] at hmapperm
      have : ((extractCounts paths minLen).1.map
          ((fun f : FailureSequence => f.sequence) ∘
            (fun p => FailureSequence.mk p.1 p.2
              ((alookup (extractCounts paths minLen).2 p.1).getD []) 0))) =
          (extractCounts paths minLen).1.map Prod.fst := by
        simp [Function.comp]
      rw [this] at hmapperm
      exact hmapperm.nodup_iff.mpr hnd
    · intro f hf
      have hf' := hperm.mem_iff.mp hf
      obtain ⟨p, hp, hfp⟩ := List.mem_map.mp hf'
      have hlk := alookup_of_mem_nodupKeys hp hnd
      have := hl p.1
      rw [hlk] at this
      by_cases hmem : p.1 ∈ keptSeqs paths minLen
      · rw [if_pos hmem] at this
        have hc : p.2 = (keptSeqs paths minLen).count p.1 := by
          exact Option.some.inj this
        subst hfp
        exact ⟨hmem, hc⟩
      · rw [if_neg hmem] at this
        exact absurd this (by simp)
    · intro s hs
      have := hl s
      rw [if_pos hs] at this
      have hmem := alookup_some_mem this
      refine ⟨FailureSequence.mk s ((keptSeqs paths minLen).count s)
        ((alookup (extractCounts paths minLen).2 s).getD []) 0, ?_, rfl⟩
      apply hperm.mem_iff.mpr
      exact List.mem_map.mpr ⟨(s, (keptSeqs paths minLen).count s), hmem, rfl⟩
    · have hpw := pairwise_insSortBy
        (fun a b : FailureSequence => decide (b.frequency ≤ a.frequency))
        freqDesc_trans freqDesc_total
        ((extractCounts paths minLen).1.map
          (fun p => FailureSequence.mk p.1 p.2
            ((alookup (extractCounts paths minLen).2 p.1).getD []) 0))
      rw [← extractSequences_eq] at hpw
      exact hpw.imp (fun h => of_decide_eq_true h)
  · decide

/-- C8 witness: on a concrete batch, the stripped sequence `[A, B]` is
represented in the output of `extract_sequences`. -/
theorem claim_C8_witness :
    ∃ f ∈ extractSequences [[sA, sB, sC], [sA, sC]] 2, f.sequence = [sA, sB] :=
  (claim_C8.1 [[sA, sB, sC], [sA, sC]] 2).2.2.1 [sA, sB] (by decide)

theorem scoreDesc_trans (x y z : WarningSign)
    (h1 : decide (y.predictiveScore ≤ x.predictiveScore) = true)
    (h2 : decide (z.predictiveScore ≤ y.predictiveScore) = true) :
    decide (z.predictiveScore ≤ x.predictiveScore) = true := by
  simp only [decide_eq_true_eq] at *
  exact le_trans h2 h1

theorem scoreDesc_total (x y : WarningSign) :
    decide (y.predictiveScore ≤ x.predictiveScore) = true ∨
    decide (x.predictiveScore ≤ y.predictiveScore) = true := by
  simp only [decide_eq_true_eq]
  exact le_total y.predictiveScore x.predictiveScore

/-- C9: `rank_warning_signs` produces exactly one warning sign per input
sequence (the output is a permutation of the mapped inputs), each with
predictive score `min(frequency / 10, 1)` and false-positive rate
exactly `0`; the output is sorted descending by predictive score, and
ties keep first-seen order (filtering the output at any fixed score
value returns those signs in input order). -/
theorem claim_C9 :
    ∀ (seqs : List FailureSequence),
      List.Perm (rankWarningSigns seqs) (seqs.map mkWarningSign) ∧
      (∀ s : FailureSequence,
        (mkWarningSign s).predictiveScore = min ((s.frequency : ℚ) / 10) 1 ∧
        (mkWarningSign s).falsePositiveRate = 0 ∧
        (mkWarningSign s).frequency = s.frequency) ∧
      (rankWarningSigns seqs).Pairwise
        (fun a b => b.predictiveScore ≤ a.predictiveScore) ∧
      (∀ q : ℚ,
        (rankWarningSigns seqs).filter
            (fun w => decide (w.predictiveScore = q)) =
          (seqs.map mkWarningSign).filter
            (fun w => decide (w.predictiveScore = q))) := by
  intro seqs
  refine ⟨insSortBy_perm _ _, ?_, ?_, ?_⟩
  · intro s
    exact ⟨rfl, rfl, rfl⟩
  · have hpw := pairwise_insSortBy
      (fun a b : WarningSign => decide (b.predictiveScore ≤ a.predictiveScore))
      scoreDesc_trans scoreDesc_total (seqs.map mkWarningSign)
    exact hpw.imp (fun h => of_decide_eq_true h)
  · intro q
    apply filter_insSortBy
    intro x y hx hy
    simp only [decide_eq_true_eq] at *
    rw [hx, hy]

/-! ### The discretizer (`DiscretizationConfig.get_bin`) -/

theorem mem_of_getLastSome {α : Type} {l : List α} {a : α}
    (h : l.getLast? = some a) : a ∈ l := by
  cases l with
  | nil => simp at h
  | cons b t =>
    have heq := List.getLast?_eq_getLast (b :: t) (by simp)
    rw [heq] at h
    exact (Option.some.inj h) ▸ List.getLast_mem _

theorem chainLt_head_le {l : List ℚ} {h : ℚ} (hc : List.Chain' (· < ·) l)
    (hh : l.head? = some h) {x : ℚ} (hx : x ∈ l) : h ≤ x := by
  cases l with
  | nil => simp at hh
  | cons a t =>
    obtain rfl : a = h := by simpa using hh
    rcases List.mem_cons.mp hx with rfl | hx
    · exact le_refl _
    · have hpw := List.chain'_iff_pairwise.mp hc
      exact le_of_lt ((List.pairwise_cons.mp hpw).1 x hx)

theorem findInterval_eq_some (v : ℚ) :
    ∀ (i : Nat) (bins : List ℚ) (off : Nat) (b₁ b₂ : ℚ),
      List.Chain' (· < ·) bins → bins.get? i = some b₁ →
      bins.get? (i + 1) = some b₂ → b₁ ≤ v → v < b₂ →
      findIntervalIdxAux v bins off = some (off + i) := by
  intro i
  induction i with
  | zero =>
    intro bins off b₁ b₂ hc h1 h2 hle hlt
    cases bins with
    | nil => simp at h1
    | cons a t =>
      obtain rfl : a = b₁ := by simpa using h1
      cases t with
      | nil => simp at h2
      | cons c t' =>
        obtain rfl : c = b₂ := by simpa using h2
        simp [findIntervalIdxAux, hle, hlt]
  | succ j ih =>
    intro bins off b₁ b₂ hc h1 h2 hle hlt
    cases bins with
    | nil => simp at h1
    | cons a t =>
      cases t with
      | nil => simp at h1
      | cons c t' =>
        have h1' : (c :: t').get? j = some b₁ := by simpa using h1
        have h2' : (c :: t').get? (j + 1) = some b₂ := by simpa using h2
        have hc' : List.Chain' (· < ·) (c :: t') := hc.tail
        have hcb : c ≤ b₁ := chainLt_head_le hc' rfl (List.get?_mem h1')
        have hnot : ¬(a ≤ v ∧ v < c) := by
          rintro ⟨_, hvc⟩
          exact absurd hvc (not_lt.mpr (le_trans hcb hle))
        rw [show findIntervalIdxAux v (a :: c :: t') off =
            if a ≤ v ∧ v < c then some off
            else findIntervalIdxAux v (c :: t') (off + 1) from rfl]
        rw [if_neg hnot, ih (c :: t') (off + 1) b₁ b₂ hc' h1' h2' hle hlt]
        congr 1
        omega

theorem findInterval_none_top (v : ℚ) :
    ∀ (bins : List ℚ) (off : Nat) (lastB : ℚ),
      List.Chain' (· < ·) bins → bins.getLast? = some lastB → lastB ≤ v →
      findIntervalIdxAux v bins off = none := by
  intro bins
  induction bins with
  | nil => intro off lastB _ h _; simp at h
  | cons a t ih =>
    intro off lastB hc hlast hle
    cases t with
    | nil => rfl
    | cons c t' =>
      have hlast' : (c :: t').getLast? = some lastB := by
        rwa [List.getLast?_cons_cons] at hlast
      have hclast : c ≤ lastB :=
        chainLt_head_le hc.tail rfl (mem_of_getLastSome hlast')
      have hnot : ¬(a ≤ v ∧ v < c) := by
        rintro ⟨_, hvc⟩
        exact absurd hvc (not_lt.mpr (le_trans hclast hle))
      rw [show findIntervalIdxAux v (a :: c :: t') off =
          if a ≤ v ∧ v < c then some off
          else findIntervalIdxAux v (c :: t') (off + 1) from rfl]
      rw [if_neg hnot]
      exact ih (off + 1) lastB hc.tail hlast' hle

theorem findInterval_none_below (v : ℚ) :
    ∀ (bins : List ℚ) (off : Nat) (b₀ : ℚ),
      List.Chain' (· < ·) bins → bins.head? = some b₀ → v < b₀ →
      findIntervalIdxAux v bins off = none := by
  intro bins
  induction bins with
  | nil => intro off b₀ _ h _; simp at h
  | cons a t ih =>
    intro off b₀ hc hhead hlt
    obtain rfl : a = b₀ := by simpa using hhead
    cases t with
    | nil => rfl
    | cons c t' =>
      have hac : a < c := (List.chain'_cons.mp hc).1
      have hnot : ¬(a ≤ v ∧ v < c) := by
        rintro ⟨hav, _⟩
        exact absurd hav (not_le.mpr hlt)
      rw [show findIntervalIdxAux v (a :: c :: t') off =
          if a ≤ v ∧ v < c then some off
          else findIntervalIdxAux v (c :: t') (off + 1) from rfl]
      rw [if_neg hnot]
      exact ih (off + 1) c hc.tail rfl (lt_trans hlt hac)

theorem findInterval_none_cases (v : ℚ) :
    ∀ (bins : List ℚ) (off : Nat) (b₀ lastB : ℚ),
      bins.head? = some b₀ → bins.getLast? = some lastB →
      findIntervalIdxAux v bins off = none →
      v < b₀ ∨ lastB ≤ v := by
  intro bins
  induction bins with
  | nil => intro off b₀ lastB h _ _; simp at h
  | cons a t ih =>
    intro off b₀ lastB hhead hlast hfind
    obtain rfl : a = b₀ := by simpa using hhead
    cases t with
    | nil =>
      obtain rfl : a = lastB := by simpa using hlast
      exact (lt_or_le v a).imp id id
    | cons c t' =>
      have hlast' : (c :: t').getLast? = some lastB := by
        rwa [List.getLast?_cons_cons] at hlast
      rw [show findIntervalIdxAux v (a :: c :: t') off =
          if a ≤ v ∧ v < c then some off
          else findIntervalIdxAux v (c :: t') (off + 1) from rfl] at hfind
      by_cases hcond : a ≤ v ∧ v < c
      · rw [if_pos hcond] at hfind
        simp at hfind
      · rw [if_neg hcond] at hfind
        rcases ih (off + 1) c lastB rfl hlast' hfind with hvc | hle
        · left
          by_contra hav
          exact hcond ⟨not_lt.mp hav, hvc⟩
        · right
          exact hle

/-- C4 counterexample: the degenerate binning scheme with a single
boundary and no labels satisfies the claim's hypotheses (strictly
increasing `bins`, `len(labels) == len(bins) - 1`), and the value `0`
is `>= bins[-1]`; yet `get_bin` does not return `labels[-1]` (no label
exists) — it raises an `IndexError`, although `0 >= bins[0]`. -/
theorem claim_C4_counterexample :
    List.Chain' (· < ·) [(0 : ℚ)] ∧
    ([] : List String).length + 1 = [(0 : ℚ)].length ∧
    [(0 : ℚ)].getLast? = some 0 ∧ (0 : ℚ) ≤ 0 ∧
    DiscretizationConfig.getBin ⟨[0], []⟩ 0 = BinResult.indexError ∧
    ¬∃ l, ([] : List String).getLast? = some l ∧
      DiscretizationConfig.getBin ⟨[0], []⟩ 0 = BinResult.ok l := by
  refine ⟨by simp, by decide, by decide, le_refl 0, by decide, ?_⟩
  rintro ⟨l, hl, _⟩
  simp at hl

/-- C4 (amended: the scheme must have at least one label, equivalently
at least two boundaries): for strictly increasing `bins` with
`len(labels) == len(bins) - 1` and `labels` nonempty, `get_bin` returns
`labels[i]` whenever `bins[i] <= v < bins[i+1]`, returns `labels[-1]`
whenever `v >= bins[-1]`, and raises the range error (`ValueError`)
exactly when `v < bins[0]`. -/
theorem claim_C4 :
    ∀ (bins : List ℚ) (labels : List String) (v : ℚ),
      List.Chain' (· < ·) bins → labels.length + 1 = bins.length →
      labels ≠ [] →
      ((∀ i b₁ b₂, bins.get? i = some b₁ → bins.get? (i + 1) = some b₂ →
          b₁ ≤ v → v < b₂ →
          ∃ l, labels.get? i = some l ∧
            DiscretizationConfig.getBin ⟨bins, labels⟩ v = BinResult.ok l) ∧
       (∀ lastB, bins.getLast? = some lastB → lastB ≤ v →
          ∃ l, labels.getLast? = some l ∧
            DiscretizationConfig.getBin ⟨bins, labels⟩ v = BinResult.ok l) ∧
       (DiscretizationConfig.getBin ⟨bins, labels⟩ v = BinResult.valueError ↔
          ∃ b₀, bins.head? = some b₀ ∧ v < b₀)) := by
  intro bins labels v hc hlen hne
  have hbinsne : bins ≠ [] := by
    intro h
    rw [h] at hlen
    simp at hlen
  refine ⟨?_, ?_, ?_⟩
  · intro i b₁ b₂ h1 h2 hle hlt
    have hfind := findInterval_eq_some v i bins 0 b₁ b₂ hc h1 h2 hle hlt
    rw [Nat.zero_add] at hfind
    have hi1 : i + 1 < bins.length := (List.get?_eq_some.mp h2).1
    have hi : i < labels.length := by omega
    refine ⟨labels.get ⟨i, hi⟩, List.get?_eq_get hi, ?_⟩
    have hgl : labels.get? i = some (labels.get ⟨i, hi⟩) := List.get?_eq_get hi
    rw [List.get?_eq_getElem?] at hgl
    simp [DiscretizationConfig.getBin, hfind, hgl]
  · intro lastB hlast hle
    have hfind := findInterval_none_top v bins 0 lastB hc hlast hle
    have hlabne : labels.getLast? = some (labels.getLast hne) :=
      List.getLast?_eq_getLast labels hne
    refine ⟨labels.getLast hne, hlabne, ?_⟩
    simp [DiscretizationConfig.getBin, hfind, hlast, hle, hlabne]
  · constructor
    · intro hval
      obtain ⟨b₀, hb₀⟩ : ∃ b₀, bins.head? = some b₀ := by
        cases bins with
        | nil => exact absurd rfl hbinsne
        | cons a t => exact ⟨a, rfl⟩
      obtain ⟨lastB, hlast⟩ : ∃ lastB, bins.getLast? = some lastB :=
        ⟨bins.getLast hbinsne, List.getLast?_eq_getLast bins hbinsne⟩
      refine ⟨b₀, hb₀, ?_⟩
      by_contra hnot
      have hb₀v : b₀ ≤ v := not_lt.mp hnot
      -- in every branch the result is then not a ValueError
      rcases hfind : findIntervalIdxAux v bins 0 with _ | i
      · rcases findInterval_none_cases v bins 0 b₀ lastB hb₀ hlast hfind with hlt | hle
        · exact absurd hlt hnot
        · have hlabne : labels.getLast? = some (labels.getLast hne) :=
            List.getLast?_eq_getLast labels hne
          rw [DiscretizationConfig.getBin] at hval
          simp [hfind, hlast, hle, hlabne] at hval
      · rw [DiscretizationConfig.getBin] at hval
        simp only [hfind] at hval
        rcases hlab : labels.get? i with _ | l <;>
          rw [List.get?_eq_getElem?] at hlab <;> simp [hlab] at hval
    · rintro ⟨b₀, hb₀, hlt⟩
      have hfind := findInterval_none_below v bins 0 b₀ hc hb₀ hlt
      obtain ⟨lastB, hlast⟩ : ∃ lastB, bins.getLast? = some lastB :=
        ⟨bins.getLast hbinsne, List.getLast?_eq_getLast bins hbinsne⟩
      have hb₀last : b₀ ≤ lastB :=
        chainLt_head_le hc hb₀ (mem_of_getLastSome hlast)
      have hnotle : ¬(lastB ≤ v) := by
        intro h
        exact absurd (lt_of_lt_of_le hlt hb₀last) (not_lt.mpr h)
      simp [DiscretizationConfig.getBin, hfind, hlast, hnotle]

/-- C4 witness: the amended claim applied to the concrete scheme
`bins = [0, 10, 20]`, `labels = ["lo", "hi"]` at the value 15, which
falls in interval 1 and receives the label "hi". -/
theorem claim_C4_witness :
    ∃ l, ["lo", "hi"].get? 1 = some l ∧
      DiscretizationConfig.getBin ⟨[0, 10, 20], ["lo", "hi"]⟩ 15 = BinResult.ok l :=
  (claim_C4 [0, 10, 20] ["lo", "hi"] 15
      (by norm_num [List.chain'_cons]) (by decide) (by decide)).1
    1 10 20 (by decide) (by decide) (by norm_num) (by norm_num)

theorem findInterval_some_lt (v : ℚ) :
    ∀ (bins : List ℚ) (off j : Nat),
      findIntervalIdxAux v bins off = some j →
      off ≤ j ∧ j - off + 1 < bins.length := by
  intro bins
  induction bins with
  | nil => intro off j h; simp [findIntervalIdxAux] at h
  | cons a t ih =>
    intro off j h
    cases t with
    | nil => simp [findIntervalIdxAux] at h
    | cons c t' =>
      rw [show findIntervalIdxAux v (a :: c :: t') off =
          if a ≤ v ∧ v < c then some off
          else findIntervalIdxAux v (c :: t') (off + 1) from rfl] at h
      by_cases hcond : a ≤ v ∧ v < c
      · rw [if_pos hcond] at h
        cases h
        simp
      · rw [if_neg hcond] at h
        obtain ⟨h1, h2⟩ := ih (off + 1) j h
        constructor
        · omega
        · simp only [List.length_cons] at h2 ⊢
          omega

/-- A well-formed binning scheme never raises an `IndexError` from
`get_bin`. -/
theorem getBin_wf_not_indexError (bins : List ℚ) (labels : List String) (v : ℚ)
    (_hc : List.Chain' (· < ·) bins) (hlen : labels.length + 1 = bins.length)
    (hne : labels ≠ []) :
    DiscretizationConfig.getBin ⟨bins, labels⟩ v ≠ BinResult.indexError := by
  have hbinsne : bins ≠ [] := by
    intro h
    rw [h] at hlen
    simp at hlen
  rw [DiscretizationConfig.getBin]
  rcases hfind : findIntervalIdxAux v bins 0 with _ | i
  · rcases hlast : bins.getLast? with _ | lastB
    · exact absurd hlast (by simp [List.getLast?_eq_getLast bins hbinsne])
    · by_cases hle : lastB ≤ v
      · rcases hlab : labels.getLast? with _ | l
        · exact absurd hlab (by simp [List.getLast?_eq_getLast labels hne])
        · simp [hle, hlab]
      · simp [hle]
  · obtain ⟨_, hlt⟩ := findInterval_some_lt v bins 0 i hfind
    have hi : i < labels.length := by omega
    have hgl : labels.get? i = some (labels.get ⟨i, hi⟩) := List.get?_eq_get hi
    rw [List.get?_eq_getElem?] at hgl
    simp [hgl]

/-! ### Configuration malformation (claim C7) -/

theorem discretizeSensorsAux_lookup_not_key
    (sensors : List (String × ℚ)) :
    ∀ (d : List (String × DiscretizationConfig)) (c : String)
      (disc : List (String × String)),
      c ∉ d.map Prod.fst →
      discretizeSensorsAux sensors d = Except.ok disc →
      alookup disc c = none := by
  intro d
  induction d with
  | nil =>
    intro c disc _ hok
    simp only [discretizeSensorsAux] at hok
    cases hok
    rfl
  | cons p rest ih =>
    intro c disc hnk hok
    obtain ⟨name, cfgd⟩ := p
    simp only [List.map_cons, List.mem_cons, not_or] at hnk
    obtain ⟨hc, hrest⟩ := hnk
    rcases hv : alookup sensors name with _ | v
    · simp only [discretizeSensorsAux, hv] at hok
      exact ih c disc hrest hok
    · rcases hg : cfgd.getBin v with l | _ | _
      · simp only [discretizeSensorsAux, hv, hg] at hok
        rcases hrec : discretizeSensorsAux sensors rest with e | disc'
        · simp [hrec, Except.map] at hok
        · simp only [hrec, Except.map, Except.ok.injEq] at hok
          subst hok
          have := ih c disc' hrest hrec
          simpa [alookup, hc] using this
      · simp only [discretizeSensorsAux, hv, hg] at hok
        exact ih c disc hrest hok
      · simp only [discretizeSensorsAux, hv, hg] at hok
        exact absurd hok (by simp)

/-- C7 counterexample: two concretely malformed configurations, neither
rejected at setup.  With the single state component `T` absent from the
(empty) discretization map, the whole pipeline runs to completion and
silently renders the component as "unknown" — no failure is ever raised.
With mismatched bins/labels lengths for `T`, config construction also
succeeds, and the failure (an uncaught `IndexError`) arises only inside
`build_graph`, i.e. during graph construction, not before it. -/
theorem claim_C7_counterexample :
    (∃ g, buildGraph [recT15] cfgUnknownComp = Except.ok g ∧
      g.nodes = [⟨"M1", ["unknown"]⟩]) ∧
    cfgUnknownComp.stateComponents = ["T"] ∧
    (cfgUnknownComp.discretization.map Prod.fst) = [] ∧
    (∃ p ∈ cfgMismatched.discretization,
      p.2.labels.length + 1 ≠ p.2.bins.length) ∧
    cfgMismatched.discretizeSensors recT15.sensors = Except.error () ∧
    buildGraph [recT15] cfgMismatched = Except.error () := by
  refine ⟨⟨⟨[⟨"M1", ["unknown"]⟩], [(⟨"M1", ["unknown"]⟩, [])], [],
    [(⟨"M1", ["unknown"]⟩, [recT15])]⟩, by rfl, by rfl⟩, by rfl, by rfl,
    ⟨("T", ⟨[0, 10, 20], ["lo"]⟩), by decide, by decide⟩, by rfl, by rfl⟩

/-- C7 (amended): no setup-time validation exists.  Construction of a
`GraphConfig` is total (`from_json` builds the structure without any
bins/labels or sensor-name checks), a state component absent from the
discretization map is silently rendered as the "unknown" label when
states are assembled, and a mismatched bins/labels scheme surfaces (if
at all) as an uncaught `IndexError` from discretization during graph
construction. -/
theorem claim_C7 :
    (∀ (cfg : GraphConfig) (sensors : List (String × ℚ))
       (c : String) (disc : List (String × String)),
      c ∉ cfg.discretization.map Prod.fst →
      cfg.discretizeSensors sensors = Except.ok disc →
      ∀ bins, bins = stateBinsOf cfg disc →
        ∀ i, cfg.stateComponents.get? i = some c → bins.get? i = some "unknown") ∧
    (∀ (cfg : GraphConfig) (sensors : List (String × ℚ)),
      (∀ p ∈ cfg.discretization,
        List.Chain' (· < ·) p.2.bins ∧ p.2.labels.length + 1 = p.2.bins.length ∧
          p.2.labels ≠ []) →
      ∃ disc, cfg.discretizeSensors sensors = Except.ok disc) := by
  constructor
  · intro cfg sensors c disc hnk hok bins hbins i hget
    subst hbins
    have hlook : alookup disc c = none :=
      discretizeSensorsAux_lookup_not_key sensors cfg.discretization c disc hnk hok
    rw [stateBinsOf, List.get?_map, hget]
    simp [hlook]
  · intro cfg sensors hwf
    rw [GraphConfig.discretizeSensors]
    have : ∀ d : List (String × DiscretizationConfig),
        (∀ p ∈ d, List.Chain' (· < ·) p.2.bins ∧
          p.2.labels.length + 1 = p.2.bins.length ∧ p.2.labels ≠ []) →
        ∃ disc, discretizeSensorsAux sensors d = Except.ok disc := by
      intro d
      induction d with
      | nil => intro _; exact ⟨[], rfl⟩
      | cons p rest ih =>
        intro hall
        obtain ⟨name, cfgd⟩ := p
        obtain ⟨hchain, hlen, hne⟩ := hall (name, cfgd) (by simp)
        obtain ⟨disc', hdisc'⟩ := ih (fun q hq => hall q (List.mem_cons_of_mem _ hq))
        rcases hv : alookup sensors name with _ | v
        · exact ⟨disc', by simp [discretizeSensorsAux, hv, hdisc']⟩
        · have hnotidx : cfgd.getBin v ≠ BinResult.indexError :=
            getBin_wf_not_indexError cfgd.bins cfgd.labels v hchain hlen hne
          rcases hg : cfgd.getBin v with l | _ | _
          · exact ⟨(name, l) :: disc',
              by simp [discretizeSensorsAux, hv, hg, hdisc', Except.map]⟩
          · exact ⟨disc', by simp [discretizeSensorsAux, hv, hg, hdisc']⟩
          · exact absurd hg hnotidx
    exact this cfg.discretization hwf

/-! ### Candidate start states of `discover_failure_sequences` (claim C1) -/

theorem mem_startStates_inner (g : Graph) (nbrs : List State) :
    ∀ (acc : List State) (s : State),
      s ∈ nbrs.foldl
          (fun acc nb => if g.isFailureState nb then acc else listInsert acc nb) acc ↔
        s ∈ acc ∨ (g.isFailureState s = false ∧ s ∈ nbrs) := by
  induction nbrs with
  | nil => intro acc s; simp
  | cons nb rest ih =>
    intro acc s
    rw [List.foldl_cons]
    by_cases hf : g.isFailureState nb = true
    · rw [if_pos hf, ih]
      constructor
      · rintro (h | ⟨hs, hr⟩)
        · exact Or.inl h
        · exact Or.inr ⟨hs, List.mem_cons_of_mem _ hr⟩
      · rintro (h | ⟨hs, hr⟩)
        · exact Or.inl h
        · rcases List.mem_cons.mp hr with rfl | hr
          · rw [hf] at hs; cases hs
          · exact Or.inr ⟨hs, hr⟩
    · have hf' : g.isFailureState nb = false := by
        cases h : g.isFailureState nb with
        | false => rfl
        | true => exact absurd h hf
      rw [if_neg hf, ih]
      constructor
      · rintro (h | ⟨hs, hr⟩)
        · rcases (mem_listInsert acc nb s).mp h with rfl | h
          · exact Or.inr ⟨hf', List.mem_cons_self _ _⟩
          · exact Or.inl h
        · exact Or.inr ⟨hs, List.mem_cons_of_mem _ hr⟩
      · rintro (h | ⟨hs, hr⟩)
        · exact Or.inl ((mem_listInsert acc nb s).mpr (Or.inr h))
        · rcases List.mem_cons.mp hr with rfl | hr
          · exact Or.inl ((mem_listInsert acc s s).mpr (Or.inl rfl))
          · exact Or.inr ⟨hs, hr⟩

theorem mem_startStates_outer (g : Graph) :
    ∀ (fss : List State) (acc : List State) (s : State),
      s ∈ fss.foldl
          (fun acc f =>
            (g.getNeighbors f).foldl
              (fun acc nb => if g.isFailureState nb then acc else listInsert acc nb) acc)
          acc ↔
        s ∈ acc ∨ (g.isFailureState s = false ∧ ∃ f ∈ fss, s ∈ g.getNeighbors f) := by
  intro fss
  induction fss with
  | nil => intro acc s; simp
  | cons f rest ih =>
    intro acc s
    rw [List.foldl_cons, ih, mem_startStates_inner]
    constructor
    · rintro ((h | ⟨hs, hn⟩) | ⟨hs, f', hf', hn⟩)
      · exact Or.inl h
      · exact Or.inr ⟨hs, f, List.mem_cons_self _ _, hn⟩
      · exact Or.inr ⟨hs, f', List.mem_cons_of_mem _ hf', hn⟩
    · rintro (h | ⟨hs, f', hf', hn⟩)
      · exact Or.inl (Or.inl h)
      · rcases List.mem_cons.mp hf' with rfl | hf'
        · exact Or.inl (Or.inr ⟨hs, hn⟩)
        · exact Or.inr ⟨hs, f', hf', hn⟩

/-- C1 counterexample: in the concrete graph with edges `A → F` and
`F → B` (`F` the only failure state), the code's candidate start set is
`{B}` — the non-failure *successor* of `F` — although `B` has no edge
into any failure state, while the spec's predecessor set is `{A}`. -/
theorem claim_C1_counterexample :
    sB ∈ discoverStartStates gC1 ∧
    gC1.isFailureState sB = false ∧
    (∀ f ∈ gC1.failureStates, f ∉ gC1.getNeighbors sB) ∧
    specPredecessorCandidates gC1 = [sA] ∧
    discoverStartStates gC1 = [sB] := by decide

/-- C1 (amended): the candidate start states computed by
`discover_failure_sequences` are exactly the non-failure *successors*
of failure states (the states some failure state has a direct edge to,
via `get_neighbors(failure_state)`); only when that set is empty does
the code fall back to `random.sample` over the non-failure states with
sample size `min(100, len(non_failure_states))`, hence at most 100
non-failure states. -/
theorem claim_C1 :
    (∀ (g : Graph) (s : State),
      s ∈ discoverStartStates g ↔
        (g.isFailureState s = false ∧ ∃ f ∈ g.failureStates, s ∈ g.getNeighbors f)) ∧
    (∀ (g : Graph) (sample : List State → Nat → List State),
      discoverStartStates g ≠ [] →
      discoverStartStatesFull g sample = discoverStartStates g) ∧
    (∀ (g : Graph) (sample : List State → Nat → List State),
      discoverStartStates g = [] →
      discoverStartStatesFull g sample =
        sample (nonFailureStates g) (min 100 (nonFailureStates g).length)) ∧
    (∀ (g : Graph) (sample : List State → Nat → List State),
      (∀ l n, (sample l n).length = min n l.length ∧ ∀ x ∈ sample l n, x ∈ l) →
      discoverStartStates g = [] →
      (discoverStartStatesFull g sample).length ≤ 100 ∧
        ∀ x ∈ discoverStartStatesFull g sample, x ∈ nonFailureStates g) := by
  refine ⟨?_, ?_, ?_, ?_⟩
  · intro g s
    have h := mem_startStates_outer g g.failureStates [] s
    rw [discoverStartStates]
    simpa using h
  · intro g sample hne
    rw [discoverStartStatesFull]
    rw [if_neg (by simpa [List.isEmpty_iff] using hne)]
  · intro g sample hemp
    rw [discoverStartStatesFull]
    rw [if_pos (by simpa [List.isEmpty_iff] using hemp)]
  · intro g sample hsample hemp
    rw [discoverStartStatesFull, if_pos (by simpa [List.isEmpty_iff] using hemp)]
    obtain ⟨hlen, hsub⟩ :=
      hsample (nonFailureStates g) (min 100 (nonFailureStates g).length)
    constructor
    · rw [hlen]
      exact le_trans (Nat.min_le_left _ _) (Nat.min_le_left _ _)
    · exact hsub

/-- C1 witness: the amended claim instantiated on the concrete graph
`gC1` (whose successor set `{B}` is nonempty, so no fallback happens)
and on the no-edge graph consisting of `markFailureState` alone (empty
successor set, fallback to the sampler). -/
theorem claim_C1_witness :
    discoverStartStatesFull gC1 takeSample = discoverStartStates gC1 ∧
    (discoverStartStatesFull (Graph.empty.markFailureState sF) takeSample).length ≤ 100 :=
  ⟨claim_C1.2.1 gC1 takeSample (by decide),
   (claim_C1.2.2.2 (Graph.empty.markFailureState sF) takeSample
      (fun l n => ⟨by simp [takeSample], fun x hx => List.mem_of_mem_take hx⟩)
      (by decide)).1⟩

/-! ### DFS cycle prevention (claim C2) -/

/-- C2 (code bug): on the concrete cyclic graph `A → B`, `B → A`,
`B → F` (failure `F`), with `max_depth = 5`, the completed `dfs` run
returns the path `[A, B, A, B, F]`, which contains the states `A` and
`B` twice: the `visited_in_path` set is added to and removed from within
the same loop iteration (the removal commented "Backtrack" runs right
after pushing the children, not when backtracking past the state), so it
never prevents cycles.  The depth-bound half of the claim does hold —
both returned paths have at most `max_depth + 1` states. -/
theorem claim_C2 :
    dfs gCyc sA (fun s => gCyc.isFailureState s) 5 20 =
      some [[sA, sB, sA, sB, sF], [sA, sB, sF]] ∧
    ¬([sA, sB, sA, sB, sF].Nodup) ∧
    (∀ p ∈ [[sA, sB, sA, sB, sF], [sA, sB, sF]], p.length ≤ 5 + 1) := by
  refine ⟨by decide, by decide, by decide⟩

/-! ### Graph operation lemmas -/

theorem alookup_eq_none_iff {α β : Type} [DecidableEq α]
    (l : List (α × β)) (a : α) :
    alookup l a = none ↔ a ∉ l.map Prod.fst := by
  induction l with
  | nil => simp [alookup]
  | cons p rest ih =>
    obtain ⟨k, v⟩ := p
    by_cases h : a = k
    · simp [alookup, h]
    · simp [alookup, h, ih]

theorem alistSet_keys {α β : Type} [DecidableEq α]
    (l : List (α × β)) (k : α) (v : β) :
    (alistSet l k v).map Prod.fst =
      if k ∈ l.map Prod.fst then l.map Prod.fst else l.map Prod.fst ++ [k] := by
  induction l with
  | nil => simp [alistSet]
  | cons p rest ih =>
    obtain ⟨k₀, v₀⟩ := p
    by_cases h : k = k₀
    · simp [alistSet, h]
    · simp only [alistSet, if_neg h, List.map_cons, ih]
      by_cases hm : k ∈ rest.map Prod.fst
      · simp [hm, h]
      · simp [hm, h]

theorem sum_alistSet {α β : Type} [DecidableEq α]
    (l : List (α × List β)) (k : α) (v w : List β)
    (hl : alookup l k = some w) :
    (hnd : (l.map Prod.fst).Nodup) →
    ((alistSet l k v).map (fun p => p.2.length)).sum + w.length =
      (l.map (fun p => p.2.length)).sum + v.length := by
  induction l with
  | nil => simp [alookup] at hl
  | cons p rest ih =>
    intro hnd
    obtain ⟨k₀, v₀⟩ := p
    simp only [List.map_cons, List.nodup_cons] at hnd
    by_cases h : k = k₀
    · subst h
      simp only [alookup, if_pos rfl] at hl
      cases hl
      simp [alistSet]
      omega
    · simp only [alookup, if_neg h] at hl
      simp only [alistSet, if_neg h, List.map_cons, List.sum_cons]
      have := ih hl hnd.2
      omega

theorem getNeighbors_addNode (g : Graph) (st s : State) :
    (g.addNode st).getNeighbors s = g.getNeighbors s := by
  rw [Graph.getNeighbors, Graph.getNeighbors, Graph.addNode]
  by_cases hsome : (alookup g.edges st).isSome
  · simp [hsome]
  · simp only [hsome, Bool.false_eq_true, if_false]
    by_cases hs : s = st
    · subst hs
      rw [alookup_append_none _ _ _ (Option.not_isSome_iff_eq_none.mp hsome)]
      simp [alookup, Option.not_isSome_iff_eq_none.mp hsome]
    · rcases hlk : alookup g.edges s with _ | l
      · rw [alookup_append_none _ _ _ hlk]
        simp [alookup, hs]
      · rw [alookup_append_some _ _ _ _ hlk]

theorem addNode_lookup_isSome (g : Graph) (st : State) :
    (alookup (g.addNode st).edges st).isSome := by
  rw [Graph.addNode]
  by_cases hsome : (alookup g.edges st).isSome
  · simp [hsome]
  · simp only [hsome, Bool.false_eq_true, if_false]
    rw [alookup_append_none _ _ _ (Option.not_isSome_iff_eq_none.mp hsome)]
    simp [alookup]

theorem addNode_edges_keys_nodup (g : Graph) (st : State)
    (h : (g.edges.map Prod.fst).Nodup) :
    ((g.addNode st).edges.map Prod.fst).Nodup := by
  rw [Graph.addNode]
  by_cases hsome : (alookup g.edges st).isSome
  · simpa [hsome] using h
  · simp only [hsome, Bool.false_eq_true, if_false]
    have hnot : st ∉ g.edges.map Prod.fst := by
      rw [← alookup_eq_none_iff]
      exact Option.not_isSome_iff_eq_none.mp hsome
    simp only [List.map_append, List.map_cons, List.map_nil]
    refine List.Nodup.append h (List.nodup_singleton st) ?_
    intro x hx hxs
    rw [List.mem_singleton] at hxs
    exact hnot (hxs ▸ hx)

theorem edgeCount_addNode (g : Graph) (st : State) :
    edgeCount (g.addNode st) = edgeCount g := by
  rw [edgeCount, edgeCount, Graph.addNode]
  by_cases hsome : (alookup g.edges st).isSome
  · simp [hsome]
  · simp [hsome]

theorem nodes_addNode (g : Graph) (st : State) :
    (g.addNode st).nodes = if st ∈ g.nodes then g.nodes else g.nodes ++ [st] := rfl

theorem addNode_nodes_nodup (g : Graph) (st : State) (h : g.nodes.Nodup) :
    (g.addNode st).nodes.Nodup := by
  rw [nodes_addNode]
  by_cases hm : st ∈ g.nodes
  · simpa [hm] using h
  · simp only [if_neg hm]
    refine List.Nodup.append h (List.nodup_singleton st) ?_
    intro x hx hxs
    rw [List.mem_singleton] at hxs
    exact hm (hxs ▸ hx)

theorem mem_nodes_addNode (g : Graph) (st s : State) :
    s ∈ (g.addNode st).nodes ↔ s = st ∨ s ∈ g.nodes := by
  rw [nodes_addNode]
  by_cases hm : st ∈ g.nodes
  · simp only [if_pos hm]
    constructor
    · exact Or.inr
    · rintro (rfl | h)
      · exact hm
      · exact h
  · simp [if_neg hm, List.mem_append, or_comm]

theorem nodes_addNode_length (g : Graph) (st : State) :
    (g.addNode st).nodes.length ≤ g.nodes.length + 1 := by
  rw [nodes_addNode]
  by_cases hm : st ∈ g.nodes
  · simp [hm]
  · simp [hm]

theorem getNeighbors_markFailureState (g : Graph) (st s : State) :
    (g.markFailureState st).getNeighbors s = g.getNeighbors s := by
  rw [Graph.markFailureState]
  exact getNeighbors_addNode g st s

theorem addEdge_cur (g : Graph) (a b : State) :
    (alookup ((g.addNode a).addNode b).edges a).getD [] = g.getNeighbors a := by
  have h1 := getNeighbors_addNode (g.addNode a) b a
  have h2 := getNeighbors_addNode g a a
  simp only [Graph.getNeighbors] at h1 h2
  rw [h1, h2]
  rfl

theorem addEdge_eq (g : Graph) (a b : State) :
    g.addEdge a b =
      if b ∈ g.getNeighbors a then (g.addNode a).addNode b
      else { (g.addNode a).addNode b with
             edges := alistSet ((g.addNode a).addNode b).edges a
               (g.getNeighbors a ++ [b]) } := by
  rw [Graph.addEdge]
  rw [show (alookup ((g.addNode a).addNode b).edges a).getD [] = g.getNeighbors a
    from addEdge_cur g a b]

theorem getNeighbors_addEdge (g : Graph) (a b x : State) :
    (g.addEdge a b).getNeighbors x =
      if x = a then
        (if b ∈ g.getNeighbors a then g.getNeighbors a
         else g.getNeighbors a ++ [b])
      else g.getNeighbors x := by
  rw [addEdge_eq]
  by_cases hb : b ∈ g.getNeighbors a
  · rw [if_pos hb]
    rw [getNeighbors_addNode, getNeighbors_addNode]
    by_cases hx : x = a
    · simp [hx, hb]
    · simp [hx]
  · rw [if_neg hb]
    by_cases hx : x = a
    · subst hx
      rw [show ({ (g.addNode x).addNode b with
          edges := alistSet ((g.addNode x).addNode b).edges x
            (g.getNeighbors x ++ [b]) } : Graph).getNeighbors x =
          (alookup (alistSet ((g.addNode x).addNode b).edges x
            (g.getNeighbors x ++ [b])) x).getD [] from rfl]
      rw [alookup_alistSet_self]
      simp [hb]
    · rw [show ({ (g.addNode a).addNode b with
          edges := alistSet ((g.addNode a).addNode b).edges a
            (g.getNeighbors a ++ [b]) } : Graph).getNeighbors x =
          (alookup (alistSet ((g.addNode a).addNode b).edges a
            (g.getNeighbors a ++ [b])) x).getD [] from rfl]
      rw [alookup_alistSet_ne _ _ _ _ hx]
      have h1 := getNeighbors_addNode (g.addNode a) b x
      have h2 := getNeighbors_addNode g a x
      simp only [Graph.getNeighbors] at h1 h2
      rw [h1, h2, if_neg hx]
      rfl

theorem addEdge_edges_keys_nodup (g : Graph) (a b : State)
    (h : (g.edges.map Prod.fst).Nodup) :
    ((g.addEdge a b).edges.map Prod.fst).Nodup := by
  rw [addEdge_eq]
  have h2 := addNode_edges_keys_nodup _ b (addNode_edges_keys_nodup g a h)
  by_cases hb : b ∈ g.getNeighbors a
  · simpa [hb] using h2
  · rw [if_neg hb]
    rw [show ({ (g.addNode a).addNode b with
        edges := alistSet ((g.addNode a).addNode b).edges a
          (g.getNeighbors a ++ [b]) } : Graph).edges =
        alistSet ((g.addNode a).addNode b).edges a
          (g.getNeighbors a ++ [b]) from rfl]
    rw [alistSet_keys]
    have hmem : a ∈ ((g.addNode a).addNode b).edges.map Prod.fst := by
      by_contra hcon
      have hnone : alookup ((g.addNode a).addNode b).edges a = none :=
        (alookup_eq_none_iff _ _).mpr hcon
      have hsome : (alookup ((g.addNode a).addNode b).edges a).isSome := by
        have hstep := addNode_lookup_isSome g a
        obtain ⟨l, hl⟩ := Option.isSome_iff_exists.mp hstep
        rw [Graph.addNode]
        by_cases hs2 : (alookup (g.addNode a).edges b).isSome
        · simp only [hs2, if_true]
          exact Option.isSome_iff_exists.mpr ⟨l, hl⟩
        · simp only [hs2, Bool.false_eq_true, if_false]
          rw [alookup_append_some _ _ _ _ hl]
          rfl
      rw [hnone] at hsome
      simp at hsome
    simp [hmem, h2]

theorem edgeCount_addEdge_fresh (g : Graph) (a b : State)
    (hnd : (g.edges.map Prod.fst).Nodup) (hb : b ∉ g.getNeighbors a) :
    edgeCount (g.addEdge a b) = edgeCount g + 1 := by
  rw [addEdge_eq, if_neg hb]
  have hnd2 := addNode_edges_keys_nodup _ b (addNode_edges_keys_nodup g a hnd)
  have hsome : (alookup ((g.addNode a).addNode b).edges a).isSome := by
    have hstep := addNode_lookup_isSome g a
    obtain ⟨l, hl⟩ := Option.isSome_iff_exists.mp hstep
    rw [Graph.addNode]
    by_cases hs2 : (alookup (g.addNode a).edges b).isSome
    · simp only [hs2, if_true]
      exact Option.isSome_iff_exists.mpr ⟨l, hl⟩
    · simp only [hs2, Bool.false_eq_true, if_false]
      rw [alookup_append_some _ _ _ _ hl]
      rfl
  obtain ⟨l, hl⟩ := Option.isSome_iff_exists.mp hsome
  have hleq : l = g.getNeighbors a := by
    have := addEdge_cur g a b
    rw [hl] at this
    simpa using this
  subst hleq
  have hsum := sum_alistSet ((g.addNode a).addNode b).edges a
    (g.getNeighbors a ++ [b]) (g.getNeighbors a) hl hnd2
  have hcnt : edgeCount ((g.addNode a).addNode b) = edgeCount g := by
    rw [edgeCount_addNode, edgeCount_addNode]
  rw [show edgeCount ({ (g.addNode a).addNode b with
      edges := alistSet ((g.addNode a).addNode b).edges a
        (g.getNeighbors a ++ [b]) } : Graph) =
      ((alistSet ((g.addNode a).addNode b).edges a
        (g.getNeighbors a ++ [b])).map (fun p => p.2.length)).sum from rfl]
  rw [edgeCount] at hcnt
  simp only [List.length_append, List.length_singleton] at hsum
  omega

theorem nodes_addEdge_mem (g : Graph) (a b : State)
    (ha : a ∈ g.nodes) (hb : b ∈ g.nodes) : (g.addEdge a b).nodes = g.nodes := by
  rw [addEdge_eq]
  have h1 : (g.addNode a).nodes = g.nodes := by
    rw [nodes_addNode, if_pos ha]
  have h2 : ((g.addNode a).addNode b).nodes = g.nodes := by
    rw [nodes_addNode, h1, if_pos hb]
  by_cases hbn : b ∈ g.getNeighbors a
  · simpa [hbn] using h2
  · rw [if_neg hbn]
    exact h2

/-! ### Similarity mode (claim C6) -/

theorem simInner_spec (s₁ : State) :
    ∀ (cands : List State) (g : Graph) (found : Nat),
      cands.Nodup → (∀ c ∈ cands, c ∉ g.getNeighbors s₁) →
      ((simInner s₁ g found cands).getNeighbors s₁ =
        g.getNeighbors s₁ ++
          ((cands.filter
            (fun s₂ => decide (s₂ ≠ s₁) && statesDifferByOne s₁ s₂ true)).take
            (maxNeighborsPerState - found))) ∧
      (∀ x, x ≠ s₁ → (simInner s₁ g found cands).getNeighbors x = g.getNeighbors x) := by
  intro cands
  induction cands with
  | nil =>
    intro g found _ _
    simp [simInner]
  | cons c rest ih =>
    intro g found hnd hmem
    obtain ⟨hcnotin, hndrest⟩ := List.nodup_cons.mp hnd
    by_cases hceq : c = s₁
    · have hstep : simInner s₁ g found (c :: rest) = simInner s₁ g found rest := by
        rw [simInner, if_pos hceq]
      have hfil : (c :: rest).filter
          (fun s₂ => decide (s₂ ≠ s₁) && statesDifferByOne s₁ s₂ true) =
          rest.filter (fun s₂ => decide (s₂ ≠ s₁) && statesDifferByOne s₁ s₂ true) := by
        rw [List.filter_cons]
        simp [hceq]
      rw [hstep, hfil]
      exact ih g found hndrest (fun x hx => hmem x (List.mem_cons_of_mem _ hx))
    · by_cases hcap : maxNeighborsPerState ≤ found
      · have hstep : simInner s₁ g found (c :: rest) = g := by
          rw [simInner, if_neg hceq, if_pos hcap]
        have hz : maxNeighborsPerState - found = 0 := by omega
        rw [hstep, hz]
        exact ⟨by simp, fun x _ => rfl⟩
      · by_cases hdiff : statesDifferByOne s₁ c true = true
        · have hstep : simInner s₁ g found (c :: rest) =
              simInner s₁ (g.addEdge s₁ c) (found + 1) rest := by
            rw [simInner, if_neg hceq, if_neg hcap, if_pos hdiff]
          have hcnot : c ∉ g.getNeighbors s₁ := hmem c (List.mem_cons_self _ _)
          have hn' : (g.addEdge s₁ c).getNeighbors s₁ = g.getNeighbors s₁ ++ [c] := by
            rw [getNeighbors_addEdge, if_pos rfl, if_neg hcnot]
          have hx' : ∀ x, x ≠ s₁ → (g.addEdge s₁ c).getNeighbors x = g.getNeighbors x := by
            intro x hx
            rw [getNeighbors_addEdge, if_neg hx]
          have hmem' : ∀ x ∈ rest, x ∉ (g.addEdge s₁ c).getNeighbors s₁ := by
            intro x hx
            rw [hn', List.mem_append, List.mem_singleton]
            rintro (hin | rfl)
            · exact hmem x (List.mem_cons_of_mem _ hx) hin
            · exact hcnotin hx
          obtain ⟨ihn, ihx⟩ := ih (g.addEdge s₁ c) (found + 1) hndrest hmem'
          constructor
          · rw [hstep, ihn, hn']
            have hfil : (c :: rest).filter
                (fun s₂ => decide (s₂ ≠ s₁) && statesDifferByOne s₁ s₂ true) =
                c :: rest.filter
                  (fun s₂ => decide (s₂ ≠ s₁) && statesDifferByOne s₁ s₂ true) := by
              rw [List.filter_cons]
              simp [hceq, hdiff]
            rw [hfil]
            have hsucc : maxNeighborsPerState - found =
                (maxNeighborsPerState - (found + 1)) + 1 := by omega
            rw [hsucc, List.take_succ_cons]
            simp
          · intro x hx
            rw [hstep, ihx x hx, hx' x hx]
        · have hdiff' : statesDifferByOne s₁ c true = false := by
            cases h : statesDifferByOne s₁ c true with
            | false => rfl
            | true => exact absurd h hdiff
          have hstep : simInner s₁ g found (c :: rest) = simInner s₁ g found rest := by
            rw [simInner, if_neg hceq, if_neg hcap, if_neg hdiff]
          have hfil : (c :: rest).filter
              (fun s₂ => decide (s₂ ≠ s₁) && statesDifferByOne s₁ s₂ true) =
              rest.filter (fun s₂ => decide (s₂ ≠ s₁) && statesDifferByOne s₁ s₂ true) := by
            rw [List.filter_cons]
            simp [hdiff']
          rw [hstep, hfil]
          exact ih g found hndrest (fun x hx => hmem x (List.mem_cons_of_mem _ hx))

theorem simInner_nodes (s₁ : State) :
    ∀ (cands : List State) (g : Graph) (found : Nat),
      s₁ ∈ g.nodes → (∀ c ∈ cands, c ∈ g.nodes) →
      (simInner s₁ g found cands).nodes = g.nodes := by
  intro cands
  induction cands with
  | nil => intro g found _ _; rfl
  | cons c rest ih =>
    intro g found hs hc
    by_cases hceq : c = s₁
    · rw [simInner, if_pos hceq]
      exact ih g found hs (fun x hx => hc x (List.mem_cons_of_mem _ hx))
    · by_cases hcap : maxNeighborsPerState ≤ found
      · rw [simInner, if_neg hceq, if_pos hcap]
      · by_cases hdiff : statesDifferByOne s₁ c true = true
        · rw [simInner, if_neg hceq, if_neg hcap, if_pos hdiff]
          have hnodes := nodes_addEdge_mem g s₁ c hs (hc c (List.mem_cons_self _ _))
          rw [ih (g.addEdge s₁ c) (found + 1)
            (by rw [hnodes]; exact hs)
            (fun x hx => by rw [hnodes]; exact hc x (List.mem_cons_of_mem _ hx))]
          exact hnodes
        · rw [simInner, if_neg hceq, if_neg hcap, if_neg hdiff]
          exact ih g found hs (fun x hx => hc x (List.mem_cons_of_mem _ hx))

theorem similarity_fold_spec (enum : List State) (henum : enum.Nodup) :
    ∀ (srcs : List State) (g : Graph),
      srcs.Nodup → (∀ a ∈ srcs, g.getNeighbors a = []) →
      ∀ a, ((srcs.foldl (fun acc s₁ => simInner s₁ acc 0 enum) g).getNeighbors a) =
        if a ∈ srcs
        then (enum.filter
          (fun s₂ => decide (s₂ ≠ a) && statesDifferByOne a s₂ true)).take
          maxNeighborsPerState
        else g.getNeighbors a := by
  intro srcs
  induction srcs with
  | nil => intro g _ _ a; simp
  | cons s₁ rest ih =>
    intro g hnd hempty a
    obtain ⟨hnotin, hndrest⟩ := List.nodup_cons.mp hnd
    have hmem : ∀ c ∈ enum, c ∉ g.getNeighbors s₁ := by
      intro c _
      rw [hempty s₁ (List.mem_cons_self _ _)]
      exact List.not_mem_nil c
    obtain ⟨hspec1, hspec2⟩ := simInner_spec s₁ enum g 0 henum hmem
    have hempty' : ∀ x ∈ rest, (simInner s₁ g 0 enum).getNeighbors x = [] := by
      intro x hx
      have hxne : x ≠ s₁ := by
        rintro rfl
        exact hnotin hx
      rw [hspec2 x hxne]
      exact hempty x (List.mem_cons_of_mem _ hx)
    rw [List.foldl_cons, ih (simInner s₁ g 0 enum) hndrest hempty']
    by_cases ha : a ∈ rest
    · simp [ha, List.mem_cons_of_mem]
    · rw [if_neg ha]
      by_cases haeq : a = s₁
      · subst haeq
        rw [hspec1, hempty a (List.mem_cons_self _ _)]
        simp
      · rw [hspec2 a haeq]
        have : a ∉ s₁ :: rest := by
          rw [List.mem_cons]
          rintro (rfl | h)
          · exact haeq rfl
          · exact ha h
        rw [if_neg this]

theorem similarityPass_spec (g : Graph) (henum : g.nodes.Nodup)
    (hempty : ∀ a, g.getNeighbors a = []) :
    ∀ a, (similarityPass g g.nodes).getNeighbors a =
      if a ∈ g.nodes
      then (g.nodes.filter
        (fun s₂ => decide (s₂ ≠ a) && statesDifferByOne a s₂ true)).take
        maxNeighborsPerState
      else [] := by
  intro a
  have h := similarity_fold_spec g.nodes henum g.nodes g henum
    (fun x _ => hempty x) a
  rw [similarityPass, h]
  by_cases ha : a ∈ g.nodes
  · rw [if_pos ha, if_pos ha]
  · rw [if_neg ha, if_neg ha, hempty a]

theorem similarityPass_nodes (g : Graph) :
    ∀ (srcs : List State), (∀ c ∈ g.nodes, c ∈ g.nodes) → (∀ s ∈ srcs, s ∈ g.nodes) →
      (srcs.foldl (fun acc s₁ => simInner s₁ acc 0 g.nodes) g).nodes = g.nodes := by
  intro srcs
  -- generalized: the node list never changes along the fold
  suffices h : ∀ (srcs : List State) (acc : Graph), acc.nodes = g.nodes →
      (∀ s ∈ srcs, s ∈ g.nodes) → (∀ c ∈ g.nodes, c ∈ acc.nodes) →
      (srcs.foldl (fun acc s₁ => simInner s₁ acc 0 g.nodes) acc).nodes = g.nodes by
    intro _ hs
    exact h srcs g rfl hs (fun c hc => hc)
  intro srcs₂
  induction srcs₂ with
  | nil => intro acc hacc _ _; simpa using hacc
  | cons s₁ rest ih =>
    intro acc hacc hs hc
    rw [List.foldl_cons]
    have hnodes : (simInner s₁ acc 0 g.nodes).nodes = acc.nodes :=
      simInner_nodes s₁ g.nodes acc 0
        (by rw [hacc]; exact hs s₁ (List.mem_cons_self _ _)) (fun c hcm => hc c hcm)
    exact ih (simInner s₁ acc 0 g.nodes) (by rw [hnodes, hacc])
      (fun s hsm => hs s (List.mem_cons_of_mem _ hsm))
      (fun c hcm => by rw [hnodes]; exact hc c hcm)

/-! ### The first pass of `build_graph` -/

theorem registerRecord_ok_parts {cfg : GraphConfig} {m : String} {g : Graph}
    {r : HistoricalRecord} {g' : Graph}
    (hok : registerRecord cfg m g r = Except.ok g') :
    ∃ st, stateOf cfg m r = Except.ok st ∧
      g'.nodes = (g.addNode st).nodes ∧ g'.edges = (g.addNode st).edges := by
  rw [registerRecord] at hok
  rcases hso : stateOf cfg m r with e | st
  · rw [hso] at hok
    simp [Except.map] at hok
  · rw [hso] at hok
    simp only [Except.map, Except.ok.injEq] at hok
    subst hok
    refine ⟨st, rfl, ?_, ?_⟩
    · by_cases hf : r.failureLabel
      · simp only [hf, if_true]
        rw [Graph.markFailureState, nodes_addNode]
        rw [show ({ g.addNode st with
            stateToRecords := alistSet (g.addNode st).stateToRecords st
              (((alookup (g.addNode st).stateToRecords st).getD []) ++ [r]) } : Graph).nodes =
          (g.addNode st).nodes from rfl]
        rw [if_pos ((mem_nodes_addNode g st st).mpr (Or.inl rfl))]
      · simp only [hf, Bool.false_eq_true, if_false]
    · by_cases hf : r.failureLabel
      · simp only [hf, if_true]
        rw [Graph.markFailureState, Graph.addNode]
        have hsome : (alookup ({ g.addNode st with
            stateToRecords := alistSet (g.addNode st).stateToRecords st
              (((alookup (g.addNode st).stateToRecords st).getD []) ++ [r]) } : Graph).edges
            st).isSome := addNode_lookup_isSome g st
        rw [if_pos hsome]
      · simp only [hf, Bool.false_eq_true, if_false]

theorem firstPass_props (cfg : GraphConfig) (m : String) :
    ∀ (recs : List HistoricalRecord) (g g' : Graph),
      recs.foldlM (registerRecord cfg m) g = Except.ok g' →
      (∀ s, g.getNeighbors s = []) → g.nodes.Nodup → (g.edges.map Prod.fst).Nodup →
      (∀ s, g'.getNeighbors s = []) ∧ g'.nodes.Nodup ∧
        (g'.edges.map Prod.fst).Nodup ∧
        g'.nodes.length ≤ g.nodes.length + recs.length ∧
        (∀ x ∈ g.nodes, x ∈ g'.nodes) ∧
        (∀ r ∈ recs, ∀ st, stateOf cfg m r = Except.ok st → st ∈ g'.nodes) := by
  intro recs
  induction recs with
  | nil =>
    intro g g' hok h1 h2 h3
    rw [List.foldlM_nil] at hok
    cases hok
    exact ⟨h1, h2, h3, by simp, fun x hx => hx, by simp⟩
  | cons r rest ih =>
    intro g g' hok h1 h2 h3
    rw [List.foldlM_cons] at hok
    rcases hreg : registerRecord cfg m g r with e | g₁
    · rw [hreg] at hok
      exact absurd hok (by intro h; cases h)
    · rw [hreg] at hok
      rw [show (Except.ok g₁ >>= fun g₂ =>
          rest.foldlM (registerRecord cfg m) g₂ : Except Unit Graph) =
          rest.foldlM (registerRecord cfg m) g₁ from rfl] at hok
      obtain ⟨st, hst, hnodes, hedges⟩ := registerRecord_ok_parts hreg
      have hgn : ∀ s, g₁.getNeighbors s = g.getNeighbors s := by
        intro s
        rw [Graph.getNeighbors, hedges]
        exact getNeighbors_addNode g st s
      have h1' : ∀ s, g₁.getNeighbors s = [] := fun s => by rw [hgn s]; exact h1 s
      have h2' : g₁.nodes.Nodup := by rw [hnodes]; exact addNode_nodes_nodup g st h2
      have h3' : (g₁.edges.map Prod.fst).Nodup := by
        rw [hedges]; exact addNode_edges_keys_nodup g st h3
      obtain ⟨p1, p2, p3, p4, p5, p6⟩ := ih g₁ g' hok h1' h2' h3'
      refine ⟨p1, p2, p3, ?_, ?_, ?_⟩
      · have hlen : g₁.nodes.length ≤ g.nodes.length + 1 := by
          rw [hnodes]; exact nodes_addNode_length g st
        simp only [List.length_cons]
        omega
      · intro x hx
        exact p5 x (by rw [hnodes]; exact (mem_nodes_addNode g st x).mpr (Or.inr hx))
      · intro r' hr' st' hst'
        rcases List.mem_cons.mp hr' with rfl | hr'
        · have : st' = st := by
            rw [hst] at hst'
            exact (Except.ok.inj hst').symm
          subst this
          exact p5 st' (by rw [hnodes]; exact (mem_nodes_addNode g st' st').mpr (Or.inl rfl))
        · exact p6 r' hr' st' hst'

/-! ### Grouping by machine -/

theorem groupByMachine_go (m : String) :
    ∀ (todo : List HistoricalRecord)
      (acc : List (String × List HistoricalRecord)) (done : List HistoricalRecord),
      (∀ m', (alookup acc m').getD [] =
        done.filter (fun r => decide (r.machineId = m'))) →
      (alookup (todo.foldl
        (fun acc r =>
          match alookup acc r.machineId with
          | some l => alistSet acc r.machineId (l ++ [r])
          | none => acc ++ [(r.machineId, [r])]) acc) m).getD [] =
        (done ++ todo).filter (fun r => decide (r.machineId = m)) := by
  intro todo
  induction todo with
  | nil =>
    intro acc done hinv
    simpa using hinv m
  | cons r rest ih =>
    intro acc done hinv
    rw [List.foldl_cons]
    have hstep : ∀ m', (alookup
        (match alookup acc r.machineId with
         | some l => alistSet acc r.machineId (l ++ [r])
         | none => acc ++ [(r.machineId, [r])]) m').getD [] =
        (done ++ [r]).filter (fun r => decide (r.machineId = m')) := by
      intro m'
      rcases hl : alookup acc r.machineId with _ | l
      · simp only [hl]
        by_cases hm' : m' = r.machineId
        · subst hm'
          rw [alookup_append_none _ _ _ hl]
          have hdone : done.filter (fun x => decide (x.machineId = r.machineId)) = [] := by
            have := hinv r.machineId
            rw [hl] at this
            exact this.symm
          simp [alookup, List.filter_append, hdone]
        · rcases hv : alookup acc m' with _ | v
          · rw [alookup_append_none _ _ _ hv]
            have hdone : done.filter (fun x => decide (x.machineId = m')) = [] := by
              have := hinv m'
              rw [hv] at this
              exact this.symm
            have hrm : ¬(r.machineId = m') := fun h => hm' h.symm
            simp [alookup, List.filter_append, hdone, hm', hrm]
          · rw [alookup_append_some _ _ _ _ hv]
            have hveq : v = done.filter (fun x => decide (x.machineId = m')) := by
              have := hinv m'
              rw [hv] at this
              exact this
            have hrm : ¬(r.machineId = m') := fun h => hm' h.symm
            simp [List.filter_append, hrm, hveq]
      · simp only [hl]
        by_cases hm' : m' = r.machineId
        · subst hm'
          rw [alookup_alistSet_self]
          have hleq : l = done.filter (fun x => decide (x.machineId = r.machineId)) := by
            have := hinv r.machineId
            rw [hl] at this
            simpa using this
          simp [List.filter_append, hleq]
        · rw [alookup_alistSet_ne _ _ _ _ hm']
          have hrm : ¬(r.machineId = m') := fun h => hm' h.symm
          have := hinv m'
          simp [List.filter_append, hrm, this]
    have := ih (match alookup acc r.machineId with
      | some l => alistSet acc r.machineId (l ++ [r])
      | none => acc ++ [(r.machineId, [r])]) (done ++ [r]) hstep
    rw [this]
    simp

theorem groupByMachine_lookup (records : List HistoricalRecord) (m : String) :
    (alookup (groupByMachine records) m).getD [] =
      records.filter (fun r => decide (r.machineId = m)) := by
  rw [groupByMachine]
  have := groupByMachine_go m records [] [] (fun m' => by simp [alookup])
  simpa using this

theorem groupByMachine_keys_nodup (records : List HistoricalRecord) :
    ((groupByMachine records).map Prod.fst).Nodup := by
  rw [groupByMachine]
  suffices h : ∀ (todo : List HistoricalRecord)
      (acc : List (String × List HistoricalRecord)),
      (acc.map Prod.fst).Nodup →
      ((todo.foldl
        (fun acc r =>
          match alookup acc r.machineId with
          | some l => alistSet acc r.machineId (l ++ [r])
          | none => acc ++ [(r.machineId, [r])]) acc).map Prod.fst).Nodup by
    exact h records [] (by simp)
  intro todo
  induction todo with
  | nil => intro acc h; simpa using h
  | cons r rest ih =>
    intro acc h
    rw [List.foldl_cons]
    apply ih
    rcases hl : alookup acc r.machineId with _ | l
    · simp only [hl]
      have hnot : r.machineId ∉ acc.map Prod.fst :=
        (alookup_eq_none_iff _ _).mp hl
      simp only [List.map_append, List.map_cons, List.map_nil]
      refine List.Nodup.append h (List.nodup_singleton _) ?_
      intro x hx hxs
      rw [List.mem_singleton] at hxs
      exact hnot (hxs ▸ hx)
    · simp only [hl]
      rw [alistSet_keys]
      have hmem : r.machineId ∈ acc.map Prod.fst := by
        by_contra hcon
        rw [← alookup_eq_none_iff] at hcon
        rw [hcon] at hl
        cases hl
      simpa [hmem] using h

theorem filter_machine_le_one :
    ∀ (records : List HistoricalRecord),
      (records.map (fun r => r.machineId)).Nodup →
      ∀ m, (records.filter (fun r => decide (r.machineId = m))).length ≤ 1 := by
  intro records
  induction records with
  | nil => intro _ m; simp
  | cons r rest ih =>
    intro hnd m
    simp only [List.map_cons, List.nodup_cons] at hnd
    obtain ⟨hnotin, hndrest⟩ := hnd
    rw [List.filter_cons]
    by_cases hm : r.machineId = m
    · simp only [hm, decide_True, if_true]
      have hempty : rest.filter (fun x => decide (x.machineId = m)) = [] := by
        rw [List.filter_eq_nil_iff]
        intro a ha
        simp only [decide_eq_true_eq]
        intro haeq
        exact hnotin (by rw [← hm] at haeq; exact haeq ▸ List.mem_map_of_mem _ ha)
      simp [hempty]
    · simp only [hm, decide_False, Bool.false_eq_true, if_false]
      exact ih hndrest m

theorem groupByMachine_all_same (m : String) (r₀ : HistoricalRecord)
    (rest : List HistoricalRecord) (hm : ∀ r ∈ r₀ :: rest, r.machineId = m) :
    groupByMachine (r₀ :: rest) = [(m, r₀ :: rest)] := by
  rw [groupByMachine, List.foldl_cons]
  have hr₀ : r₀.machineId = m := hm r₀ (List.mem_cons_self _ _)
  rw [show (match alookup ([] : List (String × List HistoricalRecord)) r₀.machineId with
      | some l => alistSet [] r₀.machineId (l ++ [r₀])
      | none => [] ++ [(r₀.machineId, [r₀])]) = [(r₀.machineId, [r₀])] from rfl, hr₀]
  suffices h : ∀ (todo : List HistoricalRecord) (done : List HistoricalRecord),
      done ≠ [] → (∀ r ∈ todo, r.machineId = m) →
      todo.foldl
        (fun acc r =>
          match alookup acc r.machineId with
          | some l => alistSet acc r.machineId (l ++ [r])
          | none => acc ++ [(r.machineId, [r])]) [(m, done)] = [(m, done ++ todo)] by
    have := h rest [r₀] (by simp) (fun r hr => hm r (List.mem_cons_of_mem _ hr))
    simpa using this
  intro todo
  induction todo with
  | nil => intro done _ _; simp
  | cons r rest₂ ih =>
    intro done hne hall
    rw [List.foldl_cons]
    have hr : r.machineId = m := hall r (List.mem_cons_self _ _)
    have hlk : alookup [(m, done)] r.machineId = some done := by
      rw [hr]
      simp [alookup]
    rw [show (match alookup [(m, done)] r.machineId with
        | some l => alistSet [(m, done)] r.machineId (l ++ [r])
        | none => [(m, done)] ++ [(r.machineId, [r])]) =
        alistSet [(m, done)] r.machineId (done ++ [r]) from by rw [hlk]]
    rw [hr]
    rw [show alistSet [(m, done)] m (done ++ [r]) = [(m, done ++ [r])] from by
      simp [alistSet]]
    rw [ih (done ++ [r]) (by simp) (fun x hx => hall x (List.mem_cons_of_mem _ hx))]
    simp

/-! ### The two edge-construction branches of `build_graph` -/

theorem except_bind_ok {α β : Type} (a : α) (k : α → Except Unit β) :
    (Except.ok a >>= k : Except Unit β) = k a := rfl

theorem except_bind_error {α β : Type} (e : Unit) (k : α → Except Unit β) :
    (Except.error e >>= k : Except Unit β) = Except.error e := rfl

theorem buildGraph_eq (records : List HistoricalRecord) (cfg : GraphConfig) :
    buildGraph records cfg =
      (((groupByMachine records).map (fun p => (p.1, sortRecords p.2))).foldlM
        (fun g p => p.2.foldlM (registerRecord cfg p.1) g) Graph.empty) >>= fun g =>
      if hasTemporalData ((groupByMachine records).map (fun p => (p.1, sortRecords p.2)))
      then ((groupByMachine records).map (fun p => (p.1, sortRecords p.2))).foldlM
        (fun g p => (p.2.mapM (stateOf cfg p.1)) >>= fun sts =>
          pure (addConsecutiveEdges g sts)) g
      else pure (similarityPass g g.nodes) := rfl

theorem firstPassAll_props (cfg : GraphConfig) :
    ∀ (groups : List (String × List HistoricalRecord)) (g g' : Graph),
      groups.foldlM (fun g p => p.2.foldlM (registerRecord cfg p.1) g) g = Except.ok g' →
      (∀ s, g.getNeighbors s = []) → g.nodes.Nodup → (g.edges.map Prod.fst).Nodup →
      (∀ s, g'.getNeighbors s = []) ∧ g'.nodes.Nodup ∧
        (g'.edges.map Prod.fst).Nodup := by
  intro groups
  induction groups with
  | nil =>
    intro g g' hok h1 h2 h3
    rw [List.foldlM_nil] at hok
    cases hok
    exact ⟨h1, h2, h3⟩
  | cons p rest ih =>
    intro g g' hok h1 h2 h3
    rw [List.foldlM_cons] at hok
    rcases hin : p.2.foldlM (registerRecord cfg p.1) g with e | g₁
    · rw [hin] at hok
      exact absurd hok (by intro h; cases h)
    · rw [hin] at hok
      rw [show (Except.ok g₁ >>= fun g₂ =>
          rest.foldlM (fun g p => p.2.foldlM (registerRecord cfg p.1) g) g₂ :
            Except Unit Graph) =
          rest.foldlM (fun g p => p.2.foldlM (registerRecord cfg p.1) g) g₁ from rfl]
        at hok
      obtain ⟨q1, q2, q3, _, _, _⟩ := firstPass_props cfg p.1 p.2 g g₁ hin h1 h2 h3
      exact ih g₁ g' hok q1 q2 q3

/-- C6: in similarity mode (every machine contributes exactly one
record), every edge `build_graph` adds connects two distinct states at
Hamming distance 1 over the bin tuples (machine id ignored); every
source state has at most 20 (`max_neighbors_per_state`) outgoing edges;
and the successor list of each node is exactly the first (at most) 20
matching candidates in the node-enumeration order — once the cap is
reached no later candidate is accepted. -/
theorem claim_C6 :
    ∀ (records : List HistoricalRecord) (cfg : GraphConfig) (g : Graph),
      (records.map (fun r => r.machineId)).Nodup →
      buildGraph records cfg = Except.ok g →
      (∀ a b, b ∈ g.getNeighbors a →
        statesDifferByOne a b true = true ∧ a ≠ b) ∧
      (∀ a, (g.getNeighbors a).length ≤ maxNeighborsPerState) ∧
      (∀ a ∈ g.nodes, g.getNeighbors a =
        (g.nodes.filter
          (fun s₂ => decide (s₂ ≠ a) && statesDifferByOne a s₂ true)).take
          maxNeighborsPerState) := by
  intro records cfg g hnd hok
  have hsim : hasTemporalData
      ((groupByMachine records).map (fun p => (p.1, sortRecords p.2))) = false := by
    rw [hasTemporalData]
    by_contra hcon
    have hany : ((groupByMachine records).map
        (fun p => (p.1, sortRecords p.2))).any (fun p => decide (1 < p.2.length)) = true := by
      cases h : ((groupByMachine records).map
          (fun p => (p.1, sortRecords p.2))).any (fun p => decide (1 < p.2.length)) with
      | false => exact absurd h hcon
      | true => rfl
    obtain ⟨p, hp, hplen⟩ := List.any_eq_true.mp hany
    obtain ⟨q, hq, hpq⟩ := List.mem_map.mp hp
    have hlen : 1 < q.2.length := by
      have h1 := of_decide_eq_true hplen
      rw [← hpq] at h1
      have h2 : 1 < (sortRecords q.2).length := h1
      have h3 : (sortRecords q.2).length = q.2.length := by
        rw [sortRecords]
        exact (insSortBy_perm _ q.2).length_eq
      omega
    have hlk : alookup (groupByMachine records) q.1 = some q.2 := by
      obtain ⟨m, l⟩ := q
      exact alookup_of_mem_nodupKeys hq (groupByMachine_keys_nodup records)
    have hfil := groupByMachine_lookup records q.1
    rw [hlk] at hfil
    have hle := filter_machine_le_one records hnd q.1
    rw [← hfil] at hle
    simp only [Option.getD_some] at hle
    omega
  rw [buildGraph_eq] at hok
  rcases hfp : ((groupByMachine records).map (fun p => (p.1, sortRecords p.2))).foldlM
      (fun g p => p.2.foldlM (registerRecord cfg p.1) g) Graph.empty with e | g₀
  · rw [hfp] at hok
    exact absurd hok (by intro h; cases h)
  · rw [hfp] at hok
    simp only [except_bind_ok] at hok
    rw [hsim] at hok
    rw [if_neg (show ¬(false = true) by simp)] at hok
    have hg : g = similarityPass g₀ g₀.nodes := (Except.ok.inj hok).symm
    obtain ⟨hempty, hndnodes, _⟩ := firstPassAll_props cfg _ Graph.empty g₀ hfp
      (fun s => rfl) (by simp [Graph.empty]) (by simp [Graph.empty])
    have hnodes : g.nodes = g₀.nodes := by
      rw [hg]
      exact similarityPass_nodes g₀ g₀.nodes (fun c hc => hc) (fun s hs => hs)
    have hspec := similarityPass_spec g₀ hndnodes hempty
    refine ⟨?_, ?_, ?_⟩
    · intro a b hb
      rw [hg, hspec a] at hb
      by_cases ha : a ∈ g₀.nodes
      · rw [if_pos ha] at hb
        have hb' := List.mem_of_mem_take hb
        have := List.of_mem_filter hb'
        simp only [Bool.and_eq_true, decide_eq_true_eq] at this
        exact ⟨this.2, fun h => this.1 h.symm⟩
      · rw [if_neg ha] at hb
        simp at hb
    · intro a
      rw [hg, hspec a]
      by_cases ha : a ∈ g₀.nodes
      · rw [if_pos ha]
        exact List.length_take_le _ _
      · rw [if_neg ha]
        simp
    · intro a hmem
      rw [hnodes] at hmem
      rw [hg, hspec a, if_pos hmem,
        show (similarityPass g₀ g₀.nodes).nodes = g₀.nodes from hg ▸ hnodes]

/-- C6 witness: the similarity-mode claim instantiated on the concrete
two-machine batch; the low-temperature node has at most 20 outgoing
similarity edges. -/
theorem claim_C6_witness :
    (gSimilar.getNeighbors ⟨"M1", ["low"]⟩).length ≤ maxNeighborsPerState :=
  (claim_C6 recsSingle cfgT gSimilar (by decide) (by rfl)).2.1 ⟨"M1", ["low"]⟩

/-! ### Temporal mode (claim C5) -/

theorem foldlM_singleton {α : Type} (f : Graph → α → Except Unit Graph)
    (x : α) (g : Graph) : [x].foldlM f g = f g x := by
  rw [List.foldlM_cons]
  rcases h : f g x with e | g₁
  · rw [except_bind_error]
  · simp only [except_bind_ok, List.foldlM_nil]
    rfl

theorem mapM_ok_cons {f : HistoricalRecord → Except Unit State}
    {r : HistoricalRecord} {rest : List HistoricalRecord} {sts : List State}
    (h : (r :: rest).mapM f = Except.ok sts) :
    ∃ st sts', f r = Except.ok st ∧ rest.mapM f = Except.ok sts' ∧
      sts = st :: sts' := by
  rw [List.mapM_cons] at h
  rcases hr : f r with e | st
  · rw [hr, except_bind_error] at h
    cases h
  · rw [hr, except_bind_ok] at h
    rcases hrest : rest.mapM f with e | sts'
    · rw [hrest, except_bind_error] at h
      cases h
    · rw [hrest, except_bind_ok] at h
      exact ⟨st, sts', rfl, rfl, (Except.ok.inj h).symm⟩

theorem mapM_ok_length {f : HistoricalRecord → Except Unit State} :
    ∀ {l : List HistoricalRecord} {sts : List State},
      l.mapM f = Except.ok sts → sts.length = l.length := by
  intro l
  induction l with
  | nil =>
    intro sts h
    rw [List.mapM_nil] at h
    cases h
    rfl
  | cons r rest ih =>
    intro sts h
    obtain ⟨st, sts', _, hrest, rfl⟩ := mapM_ok_cons h
    simp [ih hrest]

theorem mapM_ok_mem {f : HistoricalRecord → Except Unit State} :
    ∀ {l : List HistoricalRecord} {sts : List State},
      l.mapM f = Except.ok sts → ∀ st ∈ sts, ∃ r ∈ l, f r = Except.ok st := by
  intro l
  induction l with
  | nil =>
    intro sts h st hst
    rw [List.mapM_nil] at h
    cases h
    simp at hst
  | cons r rest ih =>
    intro sts h st hst
    obtain ⟨st₀, sts', hr, hrest, rfl⟩ := mapM_ok_cons h
    rcases List.mem_cons.mp hst with rfl | hst'
    · exact ⟨r, List.mem_cons_self _ _, hr⟩
    · obtain ⟨r', hr', hfr'⟩ := ih hrest st hst'
      exact ⟨r', List.mem_cons_of_mem _ hr', hfr'⟩

theorem foldl_addEdge_getNeighbors :
    ∀ (ps : List (State × State)) (g : Graph),
      (ps.map Prod.fst).Nodup → (∀ p ∈ ps, g.getNeighbors p.1 = []) →
      ∀ a, ((ps.foldl (fun acc p => acc.addEdge p.1 p.2) g).getNeighbors a) =
        g.getNeighbors a ++ (ps.filter (fun p => decide (p.1 = a))).map Prod.snd := by
  intro ps
  induction ps with
  | nil => intro g _ _ a; simp
  | cons p rest ih =>
    intro g hnd hempty a
    obtain ⟨x, y⟩ := p
    simp only [List.map_cons, List.nodup_cons] at hnd
    obtain ⟨hxnotin, hndrest⟩ := hnd
    have hx0 : g.getNeighbors x = [] := hempty (x, y) (List.mem_cons_self _ _)
    have hnx : (g.addEdge x y).getNeighbors x = [y] := by
      rw [getNeighbors_addEdge, if_pos rfl, hx0]
      simp
    have hnother : ∀ z, z ≠ x → (g.addEdge x y).getNeighbors z = g.getNeighbors z := by
      intro z hz
      rw [getNeighbors_addEdge, if_neg hz]
    have hempty' : ∀ q ∈ rest, (g.addEdge x y).getNeighbors q.1 = [] := by
      intro q hq
      have hqx : q.1 ≠ x := by
        intro h
        exact hxnotin (h ▸ List.mem_map_of_mem Prod.fst hq)
      rw [hnother q.1 hqx]
      exact hempty q (List.mem_cons_of_mem _ hq)
    rw [List.foldl_cons, ih (g.addEdge x y) hndrest hempty' a]
    by_cases ha : a = x
    · subst ha
      rw [hnx, hx0]
      have hfil : rest.filter (fun p => decide (p.1 = a)) = [] := by
        rw [List.filter_eq_nil_iff]
        intro q hq
        simp only [decide_eq_true_eq]
        intro h
        exact hxnotin (h ▸ List.mem_map_of_mem Prod.fst hq)
      simp [List.filter_cons, hfil]
    · rw [hnother a (fun h => ha h)]
      have hne : ¬((x, y).1 = a) := fun h => ha h.symm
      simp [List.filter_cons, hne]

theorem foldl_addEdge_edgeCount :
    ∀ (ps : List (State × State)) (g : Graph),
      (ps.map Prod.fst).Nodup → (∀ p ∈ ps, g.getNeighbors p.1 = []) →
      (g.edges.map Prod.fst).Nodup →
      edgeCount (ps.foldl (fun acc p => acc.addEdge p.1 p.2) g) =
        edgeCount g + ps.length := by
  intro ps
  induction ps with
  | nil => intro g _ _ _; simp
  | cons p rest ih =>
    intro g hnd hempty hkeys
    obtain ⟨x, y⟩ := p
    simp only [List.map_cons, List.nodup_cons] at hnd
    obtain ⟨hxnotin, hndrest⟩ := hnd
    have hx0 : g.getNeighbors x = [] := hempty (x, y) (List.mem_cons_self _ _)
    have hfresh : y ∉ g.getNeighbors x := by
      rw [hx0]
      exact List.not_mem_nil y
    have hcount := edgeCount_addEdge_fresh g x y hkeys hfresh
    have hempty' : ∀ q ∈ rest, (g.addEdge x y).getNeighbors q.1 = [] := by
      intro q hq
      have hqx : q.1 ≠ x := by
        intro h
        exact hxnotin (h ▸ List.mem_map_of_mem Prod.fst hq)
      rw [getNeighbors_addEdge, if_neg hqx]
      exact hempty q (List.mem_cons_of_mem _ hq)
    rw [List.foldl_cons, ih (g.addEdge x y) hndrest hempty'
      (addEdge_edges_keys_nodup g x y hkeys), hcount]
    simp only [List.length_cons]
    omega

theorem foldl_addEdge_nodes :
    ∀ (ps : List (State × State)) (g : Graph),
      (∀ p ∈ ps, p.1 ∈ g.nodes ∧ p.2 ∈ g.nodes) →
      (ps.foldl (fun acc p => acc.addEdge p.1 p.2) g).nodes = g.nodes := by
  intro ps
  induction ps with
  | nil => intro g _; rfl
  | cons p rest ih =>
    intro g hmem
    obtain ⟨hp1, hp2⟩ := hmem p (List.mem_cons_self _ _)
    have hnodes := nodes_addEdge_mem g p.1 p.2 hp1 hp2
    rw [List.foldl_cons, ih (g.addEdge p.1 p.2)
      (fun q hq => by
        rw [hnodes]
        exact hmem q (List.mem_cons_of_mem _ hq))]
    exact hnodes

theorem map_fst_zip_tail :
    ∀ (l : List State), (l.zip l.tail).map Prod.fst = l.dropLast := by
  intro l
  induction l with
  | nil => rfl
  | cons x t ih =>
    cases t with
    | nil => rfl
    | cons y t' =>
      rw [show (x :: y :: t').tail = y :: t' from rfl,
        show (x :: y :: t').zip (y :: t') = (x, y) :: (y :: t').zip t' from rfl,
        List.map_cons,
        show (y :: t').zip t' = (y :: t').zip ((y :: t').tail) from rfl, ih]
      rfl

theorem edgeCount_of_all_empty (g : Graph)
    (hnd : (g.edges.map Prod.fst).Nodup)
    (hempty : ∀ s, g.getNeighbors s = []) : edgeCount g = 0 := by
  rw [edgeCount]
  apply List.sum_eq_zero
  intro x hx
  obtain ⟨p, hp, hpx⟩ := List.mem_map.mp hx
  obtain ⟨k, v⟩ := p
  have hlk : alookup g.edges k = some v := alookup_of_mem_nodupKeys hp hnd
  have hv : g.getNeighbors k = v := by
    rw [Graph.getNeighbors, hlk]
    rfl
  rw [hempty k] at hv
  rw [← hpx, ← hv]
  rfl

theorem simInner_keys_nodup (s₁ : State) :
    ∀ (cands : List State) (g : Graph) (found : Nat),
      (g.edges.map Prod.fst).Nodup →
      ((simInner s₁ g found cands).edges.map Prod.fst).Nodup := by
  intro cands
  induction cands with
  | nil => intro g found h; exact h
  | cons c rest ih =>
    intro g found h
    by_cases hceq : c = s₁
    · rw [simInner, if_pos hceq]
      exact ih g found h
    · by_cases hcap : maxNeighborsPerState ≤ found
      · rw [simInner, if_neg hceq, if_pos hcap]
        exact h
      · by_cases hdiff : statesDifferByOne s₁ c true = true
        · rw [simInner, if_neg hceq, if_neg hcap, if_pos hdiff]
          exact ih _ _ (addEdge_edges_keys_nodup g s₁ c h)
        · rw [simInner, if_neg hceq, if_neg hcap, if_neg hdiff]
          exact ih g found h

theorem similarityPass_keys_nodup (g : Graph)
    (h : (g.edges.map Prod.fst).Nodup) :
    ((similarityPass g g.nodes).edges.map Prod.fst).Nodup := by
  rw [similarityPass]
  suffices hgen : ∀ (srcs : List State) (acc : Graph),
      (acc.edges.map Prod.fst).Nodup →
      ((srcs.foldl (fun acc s₁ => simInner s₁ acc 0 g.nodes) acc).edges.map
        Prod.fst).Nodup by
    exact hgen g.nodes g h
  intro srcs
  induction srcs with
  | nil => intro acc hacc; exact hacc
  | cons s₁ rest ih =>
    intro acc hacc
    rw [List.foldl_cons]
    exact ih _ (simInner_keys_nodup s₁ g.nodes acc 0 hacc)

/-- C5: whenever at least one machine contributes more than one record,
`build_graph` takes the temporal branch (`has_temporal_data` is set);
and on a batch from a single machine with `N` time-ordered records whose
discretized states are `sts`, the resulting graph has at most `N` nodes,
and — when the `N` states are pairwise distinct — exactly `N − 1`
directed edges, each linking the states of consecutive records. -/
theorem claim_C5 :
    (∀ (records : List HistoricalRecord),
      (∃ m, 2 ≤ (records.filter (fun r => decide (r.machineId = m))).length) →
      hasTemporalData
        ((groupByMachine records).map (fun p => (p.1, sortRecords p.2))) = true) ∧
    (∀ (records : List HistoricalRecord) (cfg : GraphConfig) (m : String)
       (g : Graph) (sts : List State),
      records ≠ [] →
      (∀ r ∈ records, r.machineId = m) →
      records.Pairwise (fun a b => a.timeKey ≤ b.timeKey) →
      buildGraph records cfg = Except.ok g →
      records.mapM (stateOf cfg m) = Except.ok sts →
      g.nodes.length ≤ records.length ∧
      (sts.Nodup →
        edgeCount g = records.length - 1 ∧
        ∀ a b, b ∈ g.getNeighbors a ↔ (a, b) ∈ sts.zip sts.tail)) := by
  constructor
  · intro records hex
    obtain ⟨m, hm⟩ := hex
    have hfil := groupByMachine_lookup records m
    rcases hlk : alookup (groupByMachine records) m with _ | l
    · rw [hlk] at hfil
      rw [← hfil] at hm
      simp at hm
    · rw [hlk] at hfil
      simp only [Option.getD_some] at hfil
      have hmem := alookup_some_mem hlk
      have hmem' : (m, sortRecords l) ∈
          (groupByMachine records).map (fun p => (p.1, sortRecords p.2)) :=
        List.mem_map.mpr ⟨(m, l), hmem, rfl⟩
      rw [hasTemporalData]
      apply List.any_eq_true.mpr
      refine ⟨(m, sortRecords l), hmem', ?_⟩
      have hlen : (sortRecords l).length = l.length := by
        rw [sortRecords]
        exact (insSortBy_perm _ l).length_eq
      simp only [decide_eq_true_eq, hlen]
      rw [← hfil] at hm
      omega
  · intro records cfg m g sts hne hm hsorted hok hmapM
    cases records with
    | nil => exact absurd rfl hne
    | cons r₀ rest =>
      have hgroup : groupByMachine (r₀ :: rest) = [(m, r₀ :: rest)] :=
        groupByMachine_all_same m r₀ rest hm
      have hsort : sortRecords (r₀ :: rest) = r₀ :: rest := by
        rw [sortRecords]
        exact insSortBy_eq_self _ _ (hsorted.imp (fun h => decide_eq_true h))
      have hgroups : (groupByMachine (r₀ :: rest)).map
          (fun p => (p.1, sortRecords p.2)) = [(m, r₀ :: rest)] := by
        rw [hgroup]
        simp [hsort]
      rw [buildGraph_eq, hgroups] at hok
      simp only [foldlM_singleton] at hok
      rcases hfp : (r₀ :: rest).foldlM (registerRecord cfg m) Graph.empty with e | g₀
      · rw [hfp] at hok
        exact absurd hok (by intro h; cases h)
      · rw [hfp] at hok
        simp only [except_bind_ok] at hok
        obtain ⟨hempty, hndnodes, hkeys, hlen0, _, hstmem⟩ :=
          firstPass_props cfg m (r₀ :: rest) Graph.empty g₀ hfp
            (fun s => rfl) (by simp [Graph.empty]) (by simp [Graph.empty])
        have hstsnodes : ∀ st ∈ sts, st ∈ g₀.nodes := by
          intro st hst
          obtain ⟨r, hr, hfr⟩ := mapM_ok_mem hmapM st hst
          exact hstmem r hr st hfr
        have hstslen : sts.length = (r₀ :: rest).length := mapM_ok_length hmapM
        by_cases hN : 1 < (r₀ :: rest).length
        · -- temporal branch
          have hcond : hasTemporalData [(m, r₀ :: rest)] = true := by
            simp only [hasTemporalData, List.any_cons, List.any_nil,
              Bool.or_false, decide_eq_true_eq]
            simpa using hN
          rw [hcond, if_pos rfl] at hok
          rw [hmapM] at hok
          simp only [except_bind_ok] at hok
          have hg : g = addConsecutiveEdges g₀ sts := (Except.ok.inj hok).symm
          have hzipnodes : ∀ p ∈ sts.zip sts.tail, p.1 ∈ g₀.nodes ∧ p.2 ∈ g₀.nodes := by
            intro p hp
            obtain ⟨x, y⟩ := p
            obtain ⟨hx, hy⟩ := List.of_mem_zip hp
            exact ⟨hstsnodes x hx, hstsnodes y (List.mem_of_mem_tail hy)⟩
          have hnodes : g.nodes = g₀.nodes := by
            rw [hg, addConsecutiveEdges]
            exact foldl_addEdge_nodes _ g₀ hzipnodes
          refine ⟨by rw [hnodes]; simpa [Graph.empty] using hlen0, ?_⟩
          intro hstnd
          have hsrc : ((sts.zip sts.tail).map Prod.fst).Nodup := by
            rw [map_fst_zip_tail]
            exact hstnd.sublist (List.dropLast_sublist sts)
          have hemptypairs : ∀ p ∈ sts.zip sts.tail, g₀.getNeighbors p.1 = [] :=
            fun p _ => hempty p.1
          constructor
          · rw [hg, addConsecutiveEdges,
              foldl_addEdge_edgeCount _ g₀ hsrc hemptypairs hkeys,
              edgeCount_of_all_empty g₀ hkeys hempty]
            rw [List.length_zip, List.length_tail, hstslen]
            simp only [List.length_cons]
            omega
          · intro a b
            rw [hg, addConsecutiveEdges,
              foldl_addEdge_getNeighbors _ g₀ hsrc hemptypairs a,
              hempty a]
            simp only [List.nil_append, List.mem_map]
            constructor
            · rintro ⟨p, hp, hpsnd⟩
              have hmemf := List.of_mem_filter hp
              have hpm := List.mem_of_mem_filter hp
              simp only [decide_eq_true_eq] at hmemf
              have : p = (a, b) := by
                obtain ⟨p1, p2⟩ := p
                simp only at hmemf hpsnd
                rw [hmemf, hpsnd]
              exact this ▸ hpm
            · intro hab
              refine ⟨(a, b), List.mem_filter.mpr ⟨hab, by simp⟩, rfl⟩
        · -- a single record: similarity branch over a one-node graph
          have hrest : rest = [] := by
            cases rest with
            | nil => rfl
            | cons r₁ rest₂ => simp at hN
          subst hrest
          have hcond : hasTemporalData [(m, [r₀])] = false := by
            simp [hasTemporalData]
          rw [hcond, if_neg (show ¬(false = true) by simp)] at hok
          have hg : g = similarityPass g₀ g₀.nodes := (Except.ok.inj hok).symm
          obtain ⟨st, sts', hst, hnil, rfl⟩ := mapM_ok_cons hmapM
          have hsts' : sts' = [] := by
            rw [List.mapM_nil] at hnil
            exact (Except.ok.inj hnil).symm
          subst hsts'
          rw [foldlM_singleton] at hfp
          obtain ⟨st', hst', hnodes₀, _⟩ := registerRecord_ok_parts hfp
          rw [hst] at hst'
          have hstst : st = st' := Except.ok.inj hst'
          subst hstst
          have hg₀nodes : g₀.nodes = [st] := by
            rw [hnodes₀, nodes_addNode]
            simp [Graph.empty]
          have hsp : (similarityPass g₀ g₀.nodes).nodes = g₀.nodes :=
            similarityPass_nodes g₀ g₀.nodes (fun c hc => hc) (fun s hs => hs)
          have hgnodes : g.nodes = [st] := by
            rw [hg, hsp, hg₀nodes]
          have hgempty : ∀ a, g.getNeighbors a = [] := by
            intro a
            rw [hg, similarityPass_spec g₀ hndnodes hempty a]
            by_cases ha : a ∈ g₀.nodes
            · rw [if_pos ha]
              rw [hg₀nodes] at ha
              rw [List.mem_singleton] at ha
              subst ha
              rw [hg₀nodes]
              simp [List.filter_cons]
            · rw [if_neg ha]
          refine ⟨by rw [hgnodes]; simp, ?_⟩
          intro _
          constructor
          · rw [edgeCount_of_all_empty g
              (by rw [hg]; exact similarityPass_keys_nodup g₀ hkeys) hgempty]
            simp
          · intro a b
            rw [hgempty a]
            simp

/-- C5 witness: the single-machine temporal claim instantiated on the
concrete three-record batch, whose graph has at most three nodes. -/
theorem claim_C5_witness :
    gTemporal.nodes.length ≤ recsTemporal.length :=
  (claim_C5.2 recsTemporal cfgT "M1" gTemporal
    [⟨"M1", ["low"]⟩, ⟨"M1", ["med"]⟩, ⟨"M1", ["high"]⟩]
    (by decide) (by decide) (by decide) (by rfl) (by rfl)).1

/-! ### Soundness of the search algorithms (claim C10) -/

theorem searchInv_start (g : Graph) (startState : State) :
    SearchInv g startState ⟨startState, [startState], 0, 0⟩ :=
  ⟨by simp, rfl, List.chain'_singleton _, rfl⟩

theorem searchInv_extend (g : Graph) (startState : State) (n : SearchNode)
    (hinv : SearchInv g startState n) (nb : State)
    (hnb : nb ∈ g.getNeighbors n.state) (c hc : ℚ) :
    SearchInv g startState ⟨nb, n.path ++ [nb], c, hc⟩ := by
  obtain ⟨hne, hhead, hchain, hlast⟩ := hinv
  refine ⟨by simp, ?_, ?_, ?_⟩
  · cases hp : n.path with
    | nil => exact absurd hp hne
    | cons x t =>
      rw [hp] at hhead
      simpa using hhead
  · rw [List.chain'_append]
    refine ⟨hchain, List.chain'_singleton _, ?_⟩
    intro x hx y hy
    simp only [List.head?_cons, Option.mem_def, Option.some.injEq] at hy
    rw [Option.mem_def, hlast] at hx
    cases hx
    cases hy
    exact hnb
  · simp [List.getLast?_concat]

theorem searchInv_validPath (g : Graph) (startState : State) (goal : State → Bool)
    (n : SearchNode) (hinv : SearchInv g startState n)
    (hgoal : goal n.state = true) : ValidPath g startState goal n.path :=
  ⟨hinv.2.1, hinv.2.2.1, n.state, hinv.2.2.2, hgoal⟩

theorem bfsLoop_sound (g : Graph) (startState : State) (goal : State → Bool)
    (maxDepth maxPaths : Nat) :
    ∀ (fuel : Nat) (queue : List SearchNode) (vis : List (State × Nat))
      (paths res : List (List State)),
      (∀ n ∈ queue, SearchInv g startState n) →
      (∀ p ∈ paths, ValidPath g startState goal p) →
      bfsLoop g goal maxDepth maxPaths fuel queue vis paths = some res →
      ∀ p ∈ res, ValidPath g startState goal p := by
  intro fuel
  induction fuel with
  | zero => intro queue vis paths res _ _ h; cases h
  | succ fuel ih =>
    intro queue vis paths res hq hp h
    cases queue with
    | nil =>
      rw [bfsLoop] at h
      cases h
      exact hp
    | cons node rest =>
      rw [bfsLoop] at h
      by_cases hfull : maxPaths ≤ paths.length
      · rw [if_pos hfull] at h
        cases h
        exact hp
      · rw [if_neg hfull] at h
        by_cases hdepth : maxDepth ≤ node.path.length - 1
        · rw [if_pos hdepth] at h
          exact ih rest vis paths res (fun n hn => hq n (List.mem_cons_of_mem _ hn)) hp h
        · rw [if_neg hdepth] at h
          by_cases hvis : (node.state, node.path.length - 1) ∈ vis
          · rw [if_pos hvis] at h
            exact ih rest _ paths res (fun n hn => hq n (List.mem_cons_of_mem _ hn)) hp h
          · rw [if_neg hvis] at h
            by_cases hgoal : goal node.state = true
            · rw [if_pos hgoal] at h
              have hvalid : ValidPath g startState goal node.path :=
                searchInv_validPath g startState goal node
                  (hq node (List.mem_cons_self _ _)) hgoal
              have hp₂ : ∀ p ∈ paths ++ [node.path], ValidPath g startState goal p := by
                intro p hpm
                rcases List.mem_append.mp hpm with hpm | hpm
                · exact hp p hpm
                · rw [List.mem_singleton] at hpm
                  exact hpm ▸ hvalid
              by_cases hfull₂ : maxPaths ≤ (paths ++ [node.path]).length
              · rw [if_pos hfull₂] at h
                cases h
                exact hp₂
              · rw [if_neg hfull₂] at h
                exact ih rest _ _ res (fun n hn => hq n (List.mem_cons_of_mem _ hn)) hp₂ h
            · rw [if_neg hgoal] at h
              refine ih _ _ paths res ?_ hp h
              intro n hn
              rcases List.mem_append.mp hn with hn | hn
              · exact hq n (List.mem_cons_of_mem _ hn)
              · obtain ⟨nb, hnb, rfl⟩ := List.mem_map.mp hn
                exact searchInv_extend g startState node
                  (hq node (List.mem_cons_self _ _)) nb hnb 0 0

theorem dfsLoop_sound (g : Graph) (startState : State) (goal : State → Bool)
    (maxDepth : Nat) :
    ∀ (fuel : Nat) (stack : List SearchNode) (vis : List State)
      (paths res : List (List State)),
      (∀ n ∈ stack, SearchInv g startState n) →
      (∀ p ∈ paths, ValidPath g startState goal p) →
      dfsLoop g goal maxDepth fuel stack vis paths = some res →
      ∀ p ∈ res, ValidPath g startState goal p := by
  intro fuel
  induction fuel with
  | zero => intro stack vis paths res _ _ h; cases h
  | succ fuel ih =>
    intro stack vis paths res hq hp h
    cases stack with
    | nil =>
      rw [dfsLoop] at h
      cases h
      exact hp
    | cons node rest =>
      rw [dfsLoop] at h
      by_cases hdepth : maxDepth ≤ node.path.length - 1
      · rw [if_pos hdepth] at h
        exact ih rest vis paths res (fun n hn => hq n (List.mem_cons_of_mem _ hn)) hp h
      · rw [if_neg hdepth] at h
        by_cases hvis : node.state ∈ vis
        · rw [if_pos hvis] at h
          exact ih rest vis paths res (fun n hn => hq n (List.mem_cons_of_mem _ hn)) hp h
        · rw [if_neg hvis] at h
          by_cases hgoal : goal node.state = true
          · rw [if_pos hgoal] at h
            have hvalid : ValidPath g startState goal node.path :=
              searchInv_validPath g startState goal node
                (hq node (List.mem_cons_self _ _)) hgoal
            refine ih rest _ _ res (fun n hn => hq n (List.mem_cons_of_mem _ hn)) ?_ h
            intro p hpm
            rcases List.mem_append.mp hpm with hpm | hpm
            · exact hp p hpm
            · rw [List.mem_singleton] at hpm
              exact hpm ▸ hvalid
          · rw [if_neg hgoal] at h
            refine ih _ _ paths res ?_ hp h
            intro n hn
            rcases List.mem_append.mp hn with hn | hn
            · obtain ⟨nb, hnb, rfl⟩ := List.mem_map.mp hn
              exact searchInv_extend g startState node
                (hq node (List.mem_cons_self _ _)) nb hnb 0 0
            · exact hq n (List.mem_cons_of_mem _ hn)

theorem aStarPush_sound (g : Graph) (startState : State)
    (h : State → Graph → List State → ℚ) (w : ℚ) (fs : List State)
    (node : SearchNode) (visited : List State)
    (hnode : SearchInv g startState node) (nb : State)
    (hnb : nb ∈ g.getNeighbors node.state)
    (acc : List SearchNode × List (State × ℚ))
    (hacc : ∀ n ∈ acc.1, SearchInv g startState n) :
    ∀ n ∈ (aStarPush g h w fs node visited acc nb).1, SearchInv g startState n := by
  intro n hn
  rw [aStarPush] at hn
  by_cases hvisn : nb ∈ visited
  · rw [if_pos hvisn] at hn
    exact hacc n hn
  · rw [if_neg hvisn] at hn
    simp only [] at hn
    split at hn
    · rcases List.mem_append.mp hn with hn | hn
      · exact hacc n hn
      · rw [List.mem_singleton] at hn
        subst hn
        exact searchInv_extend g startState node hnode nb hnb _ _
    · exact hacc n hn

theorem aStarExpand_sound (g : Graph) (startState : State)
    (h : State → Graph → List State → ℚ) (w : ℚ) (fs : List State)
    (node : SearchNode) (visited : List State)
    (hnode : SearchInv g startState node) :
    ∀ (nbrs : List State) (acc : List SearchNode × List (State × ℚ)),
      (∀ nb ∈ nbrs, nb ∈ g.getNeighbors node.state) →
      (∀ n ∈ acc.1, SearchInv g startState n) →
      ∀ n ∈ (nbrs.foldl (aStarPush g h w fs node visited) acc).1,
        SearchInv g startState n := by
  intro nbrs
  induction nbrs with
  | nil => intro acc _ hacc n hn; exact hacc n hn
  | cons nb nrest ihn =>
    intro acc hsub hacc n hn
    rw [List.foldl_cons] at hn
    exact ihn _ (fun x hx => hsub x (List.mem_cons_of_mem _ hx))
      (aStarPush_sound g startState h w fs node visited hnode nb
        (hsub nb (List.mem_cons_self _ _)) acc hacc) n hn

theorem aStarLoop_sound (g : Graph) (startState : State) (goal : State → Bool)
    (h : State → Graph → List State → ℚ) (w : ℚ) (maxDepth : Nat) (fs : List State)
    (pop : List SearchNode → Option (SearchNode × List SearchNode))
    (hpop : MinPopSpec pop) :
    ∀ (fuel : Nat) (openSet : List SearchNode) (gs : List (State × ℚ))
      (visited : List State) (p : List State),
      (∀ n ∈ openSet, SearchInv g startState n) →
      aStarLoop g goal h w maxDepth fs pop fuel openSet gs visited = some (some p) →
      ValidPath g startState goal p := by
  intro fuel
  induction fuel with
  | zero => intro openSet gs visited p _ hh; cases hh
  | succ fuel ih =>
    intro openSet gs visited p hinv hh
    rcases hpopped : pop openSet with _ | nr
    · simp only [aStarLoop, hpopped] at hh
      simp at hh
    · obtain ⟨node, rest⟩ := nr
      simp only [aStarLoop, hpopped] at hh
      obtain ⟨hperm, _⟩ := hpop.2.2 openSet node rest hpopped
      have hnode : SearchInv g startState node :=
        hinv node (hperm.mem_iff.mp (List.mem_cons_self _ _))
      have hrest : ∀ n ∈ rest, SearchInv g startState n := fun n hn =>
        hinv n (hperm.mem_iff.mp (List.mem_cons_of_mem _ hn))
      by_cases hvis : node.state ∈ visited
      · rw [if_pos hvis] at hh
        exact ih rest gs visited p hrest hh
      · rw [if_neg hvis] at hh
        by_cases hdepth : maxDepth ≤ node.path.length - 1
        · rw [if_pos hdepth] at hh
          exact ih rest gs _ p hrest hh
        · rw [if_neg hdepth] at hh
          by_cases hgoal : goal node.state = true
          · rw [if_pos hgoal] at hh
            have : node.path = p := by
              have := Option.some.inj hh
              exact Option.some.inj this
            exact this ▸ searchInv_validPath g startState goal node hnode hgoal
          · rw [if_neg hgoal] at hh
            apply ih _ _ _ p ?_ hh
            rw [aStarExpand]
            exact aStarExpand_sound g startState h w fs node
              (visited ++ [node.state]) hnode (g.getNeighbors node.state)
              (rest, gs) (fun nb hnb => hnb) hrest

theorem popMinImpl_cons_isSome (n : SearchNode) (rest : List SearchNode) :
    (popMinImpl (n :: rest)).isSome := by
  rw [popMinImpl]
  rcases h : popMinImpl rest with _ | p
  · rfl
  · obtain ⟨m, rr⟩ := p
    by_cases hle : n.totalCost ≤ m.totalCost
    · simp [hle]
    · simp [hle]

theorem popMinImpl_min : ∀ (l : List SearchNode) (n : SearchNode)
    (rest : List SearchNode), popMinImpl l = some (n, rest) →
    List.Perm (n :: rest) l ∧ ∀ m ∈ l, n.totalCost ≤ m.totalCost := by
  intro l
  induction l with
  | nil => intro n rest h; cases h
  | cons x xs ih =>
    intro n rest h
    rcases hxs : popMinImpl xs with _ | p
    · simp only [popMinImpl, hxs] at h
      have hx : x = n ∧ ([] : List SearchNode) = rest := by
        have := Option.some.inj h
        exact ⟨(Prod.mk.inj this).1, (Prod.mk.inj this).2⟩
      obtain ⟨rfl, rfl⟩ := hx
      have hnil : xs = [] := by
        cases xs with
        | nil => rfl
        | cons y ys =>
          have := popMinImpl_cons_isSome y ys
          rw [hxs] at this
          cases this
      subst hnil
      exact ⟨List.Perm.refl _, by
        intro m hm
        rw [List.mem_singleton] at hm
        subst hm
        exact le_refl _⟩
    · obtain ⟨m, rr⟩ := p
      simp only [popMinImpl, hxs] at h
      obtain ⟨hperm, hmin⟩ := ih m rr hxs
      by_cases hle : x.totalCost ≤ m.totalCost
      · rw [if_pos hle] at h
        have hx : x = n ∧ xs = rest := by
          have := Option.some.inj h
          exact ⟨(Prod.mk.inj this).1, (Prod.mk.inj this).2⟩
        obtain ⟨rfl, rfl⟩ := hx
        refine ⟨List.Perm.refl _, ?_⟩
        intro k hk
        rcases List.mem_cons.mp hk with hk | hk
        · subst hk; exact le_refl _
        · exact le_trans hle (hmin k hk)
      · rw [if_neg hle] at h
        have hx : m = n ∧ x :: rr = rest := by
          have := Option.some.inj h
          exact ⟨(Prod.mk.inj this).1, (Prod.mk.inj this).2⟩
        obtain ⟨rfl, rfl⟩ := hx
        refine ⟨?_, ?_⟩
        · exact (List.Perm.swap x m rr).trans (hperm.cons x)
        · intro k hk
          rcases List.mem_cons.mp hk with hk | hk
          · subst hk; exact le_of_not_le hle
          · exact hmin k hk

theorem popMinImpl_spec : MinPopSpec popMinImpl := by
  refine ⟨rfl, ?_, ?_⟩
  · intro l hl
    cases l with
    | nil => exact absurd rfl hl
    | cons x xs => exact popMinImpl_cons_isSome x xs
  · intro l n rest h
    exact popMinImpl_min l n rest h

/-- C10: every path returned by a completed run of `bfs`, `dfs`, or
`a_star` is a valid graph path: it begins at the given start state,
every consecutive pair of states follows the adjacency relation
(`get_neighbors`), and its final state satisfies the goal predicate. -/
theorem claim_C10 :
    (∀ (g : Graph) (startState : State) (goal : State → Bool)
       (maxDepth maxPaths fuel : Nat) (res : List (List State)),
      bfs g startState goal maxDepth maxPaths fuel = some res →
      ∀ p ∈ res, ValidPath g startState goal p) ∧
    (∀ (g : Graph) (startState : State) (goal : State → Bool)
       (maxDepth fuel : Nat) (res : List (List State)),
      dfs g startState goal maxDepth fuel = some res →
      ∀ p ∈ res, ValidPath g startState goal p) ∧
    (∀ (g : Graph) (startState : State) (goal : State → Bool)
       (h : State → Graph → List State → ℚ) (maxDepth : Nat) (w : ℚ)
       (pop : List SearchNode → Option (SearchNode × List SearchNode))
       (fuel : Nat) (p : List State),
      MinPopSpec pop →
      aStar g startState goal h maxDepth w pop fuel = some (some p) →
      ValidPath g startState goal p) := by
  refine ⟨?_, ?_, ?_⟩
  · intro g startState goal maxDepth maxPaths fuel res hres
    exact bfsLoop_sound g startState goal maxDepth maxPaths fuel _ _ _ res
      (fun n hn => by
        rw [List.mem_singleton] at hn
        exact hn ▸ searchInv_start g startState)
      (by simp) hres
  · intro g startState goal maxDepth fuel res hres
    exact dfsLoop_sound g startState goal maxDepth fuel _ _ _ res
      (fun n hn => by
        rw [List.mem_singleton] at hn
        exact hn ▸ searchInv_start g startState)
      (by simp) hres
  · intro g startState goal h maxDepth w pop fuel p hpop hres
    exact aStarLoop_sound g startState goal h w maxDepth g.failureStates pop hpop
      fuel _ _ _ p
      (fun n hn => by
        rw [List.mem_singleton] at hn
        exact hn ▸ searchInv_start g startState)
      hres

/-! ### A* correctness (claim C3): helper lemmas -/

theorem exists_max_of_bdd (Q : Nat → Prop) :
    ∀ (N : Nat), (∀ j, Q j → j < N) → (∃ j, Q j) →
      ∃ k, Q k ∧ ∀ j, Q j → j ≤ k := by
  intro N
  induction N with
  | zero =>
    intro hbdd hne
    obtain ⟨j, hj⟩ := hne
    exact absurd (hbdd j hj) (Nat.not_lt_zero j)
  | succ N ih =>
    intro hbdd hne
    by_cases hQN : Q N
    · exact ⟨N, hQN, fun j hj => Nat.lt_succ_iff.mp (hbdd j hj)⟩
    · refine ih ?_ hne
      intro j hj
      rcases Nat.lt_succ_iff_lt_or_eq.mp (hbdd j hj) with h | h
      · exact h
      · exact absurd (h ▸ hj) hQN

theorem head_take_succ {α : Type} (l : List α) (n : Nat) :
    (l.take (n+1)).head? = l.head? := by
  cases l <;> rfl

theorem getLastSome_take {α : Type} (l : List α) :
    ∀ (i : Nat) (h : i < l.length),
      (l.take (i+1)).getLast? = some (l.get ⟨i, h⟩) := by
  induction l with
  | nil => intro i h; exact absurd h (by simp)
  | cons a t ih =>
    intro i h
    cases i with
    | zero => rfl
    | succ i =>
      have ht : i < t.length := by simpa using h
      have h1 : (t.take (i+1)).getLast? = some (t.get ⟨i, ht⟩) := ih i ht
      rcases ht2 : t.take (i+1) with _ | ⟨b, tt⟩
      · rw [ht2] at h1
        cases h1
      · simp only [List.take_succ_cons]
        rw [ht2, List.getLast?_cons_cons, ← ht2, h1]
        rfl

theorem hvFail_nonneg (g : Graph) (s : State) :
    0 ≤ heuristicTimeToFailure s g g.failureStates := by
  rw [heuristicTimeToFailure]
  split <;> norm_num

theorem hvFail_le_one (g : Graph) (s : State) :
    heuristicTimeToFailure s g g.failureStates ≤ 1 := by
  rw [heuristicTimeToFailure]
  split <;> norm_num

theorem hvFail_of_goal_true (g : Graph) (s : State)
    (h : g.isFailureState s = true) :
    heuristicTimeToFailure s g g.failureStates = 0 := by
  rw [Graph.isFailureState, decide_eq_true_eq] at h
  rw [heuristicTimeToFailure, if_pos h]

theorem validPath_ne_nil {g : Graph} {startState : State} {goal : State → Bool}
    {p : List State} (h : ValidPath g startState goal p) : p ≠ [] := by
  intro hnil
  rw [hnil] at h
  exact Option.noConfusion h.1

theorem validPath_get_zero {g : Graph} {startState : State} {goal : State → Bool}
    {p : List State} (h : ValidPath g startState goal p)
    (h0 : 0 < p.length) : p.get ⟨0, h0⟩ = startState := by
  cases p with
  | nil => simp at h0
  | cons a t => exact Option.some.inj h.1

theorem validPath_get_last {g : Graph} {startState : State} {goal : State → Bool}
    {p : List State} (h : ValidPath g startState goal p)
    (hl : p.length - 1 < p.length) : goal (p.get ⟨p.length - 1, hl⟩) = true := by
  obtain ⟨lastSt, hlast, hgoal⟩ := h.2.2
  have hne : p ≠ [] := validPath_ne_nil h
  rw [List.getLast?_eq_getLast p hne] at hlast
  have heq : p.getLast hne = lastSt := Option.some.inj hlast
  rw [← heq] at hgoal
  rw [List.getLast_eq_get] at hgoal
  exact hgoal

theorem uniqueShortest_mid_not_goal {g : Graph} {startState : State}
    {goal : State → Bool} {P : List State}
    (hUSP : UniqueShortestPath g startState goal P) (i : Nat) (hi : i < P.length)
    (hlt : i < P.length - 1) : goal (P.get ⟨i, hi⟩) = false := by
  cases hq : goal (P.get ⟨i, hi⟩) with
  | false => rfl
  | true =>
    have hvq : ValidPath g startState goal (P.take (i+1)) := by
      refine ⟨?_, (hUSP.1.2.1).take _, P.get ⟨i, hi⟩, getLastSome_take P i hi, hq⟩
      rw [head_take_succ]
      exact hUSP.1.1
    have hlen := (hUSP.2 _ hvq).1
    rw [List.length_take] at hlen
    have hmin : min (i+1) P.length = i + 1 := min_eq_left (by omega)
    omega

theorem aStarPush_step_inv (g : Graph) (startState : State) (node : SearchNode)
    (visited₂ : List State) (hnodevis : node.state ∈ visited₂)
    (hSI : SearchInv g startState node) (c : ℚ) (hcnn : 0 ≤ c)
    (hplen : (node.path.length : ℚ) ≤ c + 1)
    (nb : State) (hnb : nb ∈ g.getNeighbors node.state)
    (acc r : List SearchNode × List (State × ℚ))
    (hr : aStarPush g heuristicTimeToFailure 1 g.failureStates node visited₂ acc nb = r)
    (hsc : alookup acc.2 node.state = some c)
    (hok : ∀ n ∈ acc.1, NodeCostOk g startState n)
    (hnn : ∀ s v, alookup acc.2 s = some v → 0 ≤ v)
    (hbest : ∀ s v, alookup acc.2 s = some v → s ∉ visited₂ →
      ∃ b ∈ acc.1, b.state = s ∧ b.cost = v)
    (hlb : ∀ n ∈ acc.1, ∃ v, alookup acc.2 n.state = some v ∧ v ≤ n.cost) :
    alookup r.2 node.state = some c ∧
    (∀ n ∈ r.1, NodeCostOk g startState n) ∧
    (∀ s v, alookup r.2 s = some v → 0 ≤ v) ∧
    (∀ s v, alookup r.2 s = some v → s ∉ visited₂ →
      ∃ b ∈ r.1, b.state = s ∧ b.cost = v) ∧
    (∀ n ∈ r.1, ∃ v, alookup r.2 n.state = some v ∧ v ≤ n.cost) ∧
    (∀ s v, alookup acc.2 s = some v → v ≤ c + 1 →
      ∃ u, alookup r.2 s = some u ∧ u ≤ c + 1) ∧
    (∀ n ∈ acc.1, n ∈ r.1) ∧
    (nb ∉ visited₂ → ∃ v, alookup r.2 nb = some v ∧ v ≤ c + 1) := by
  have hNok : NodeCostOk g startState
      ⟨nb, node.path ++ [nb], c + 1, heuristicTimeToFailure nb g g.failureStates * 1⟩ := by
    refine ⟨searchInv_extend g startState node hSI nb hnb _ _, ?_, ?_, ?_, ?_⟩
    · show (0:ℚ) ≤ c + 1
      linarith
    · show (0:ℚ) ≤ heuristicTimeToFailure nb g g.failureStates * 1
      rw [mul_one]
      exact hvFail_nonneg g nb
    · show ((node.path ++ [nb]).length : ℚ) ≤ (c + 1) + 1
      rw [List.length_append, List.length_singleton]
      push_cast
      linarith
    · left
      show heuristicTimeToFailure nb g g.failureStates * 1 =
        heuristicTimeToFailure nb g g.failureStates
      rw [mul_one]
  by_cases hv : nb ∈ visited₂
  · have hreq : r = acc := by
      rw [← hr, aStarPush, if_pos hv]
    subst hreq
    exact ⟨hsc, hok, hnn, hbest, hlb, fun s v hs hvle => ⟨v, hs, hvle⟩,
      fun n hn => hn, fun hcon => absurd hv hcon⟩
  · have hnbne : nb ≠ node.state := fun he => hv (he ▸ hnodevis)
    rcases hold : alookup acc.2 nb with _ | old
    · have hreq : r = (acc.1 ++
          [⟨nb, node.path ++ [nb], c + 1, heuristicTimeToFailure nb g g.failureStates * 1⟩],
          alistSet acc.2 nb (c + 1)) := by
        rw [← hr]
        simp [aStarPush, if_neg hv, hold, hsc]
      subst hreq
      refine ⟨?_, ?_, ?_, ?_, ?_, ?_, ?_, ?_⟩
      · rw [alookup_alistSet_ne _ _ _ _ (fun he => hnbne he.symm)]
        exact hsc
      · intro n hn
        rcases List.mem_append.mp hn with hn | hn
        · exact hok n hn
        · rw [List.mem_singleton] at hn
          subst hn
          exact hNok
      · intro s v hs
        by_cases hsnb : s = nb
        · subst hsnb
          rw [alookup_alistSet_self] at hs
          have := Option.some.inj hs
          subst this
          linarith
        · rw [alookup_alistSet_ne _ _ _ _ hsnb] at hs
          exact hnn s v hs
      · intro s v hs hsvis
        by_cases hsnb : s = nb
        · subst hsnb
          rw [alookup_alistSet_self] at hs
          have := Option.some.inj hs
          subst this
          exact ⟨_, List.mem_append_right _ (List.mem_singleton_self _), rfl, rfl⟩
        · rw [alookup_alistSet_ne _ _ _ _ hsnb] at hs
          obtain ⟨b, hb, hbs, hbc⟩ := hbest s v hs hsvis
          exact ⟨b, List.mem_append_left _ hb, hbs, hbc⟩
      · intro n hn
        rcases List.mem_append.mp hn with hn | hn
        · obtain ⟨v, hv5, hle⟩ := hlb n hn
          by_cases hns : n.state = nb
          · rw [hns, hold] at hv5
            cases hv5
          · rw [alookup_alistSet_ne _ _ _ _ hns]
            exact ⟨v, hv5, hle⟩
        · rw [List.mem_singleton] at hn
          subst hn
          exact ⟨c + 1, alookup_alistSet_self _ _ _, le_refl _⟩
      · intro s v hs hvle
        by_cases hsnb : s = nb
        · subst hsnb
          rw [hold] at hs
          cases hs
        · rw [alookup_alistSet_ne _ _ _ _ hsnb]
          exact ⟨v, hs, hvle⟩
      · intro n hn
        exact List.mem_append_left _ hn
      · intro _
        exact ⟨c + 1, alookup_alistSet_self _ _ _, le_refl _⟩
    · by_cases hlt : c + 1 < old
      · have hreq : r = (acc.1 ++
            [⟨nb, node.path ++ [nb], c + 1, heuristicTimeToFailure nb g g.failureStates * 1⟩],
            alistSet acc.2 nb (c + 1)) := by
          rw [← hr]
          simp [aStarPush, if_neg hv, hold, hsc, hlt]
        subst hreq
        refine ⟨?_, ?_, ?_, ?_, ?_, ?_, ?_, ?_⟩
        · rw [alookup_alistSet_ne _ _ _ _ (fun he => hnbne he.symm)]
          exact hsc
        · intro n hn
          rcases List.mem_append.mp hn with hn | hn
          · exact hok n hn
          · rw [List.mem_singleton] at hn
            subst hn
            exact hNok
        · intro s v hs
          by_cases hsnb : s = nb
          · subst hsnb
            rw [alookup_alistSet_self] at hs
            have := Option.some.inj hs
            subst this
            linarith
          · rw [alookup_alistSet_ne _ _ _ _ hsnb] at hs
            exact hnn s v hs
        · intro s v hs hsvis
          by_cases hsnb : s = nb
          · subst hsnb
            rw [alookup_alistSet_self] at hs
            have := Option.some.inj hs
            subst this
            exact ⟨_, List.mem_append_right _ (List.mem_singleton_self _), rfl, rfl⟩
          · rw [alookup_alistSet_ne _ _ _ _ hsnb] at hs
            obtain ⟨b, hb, hbs, hbc⟩ := hbest s v hs hsvis
            exact ⟨b, List.mem_append_left _ hb, hbs, hbc⟩
        · intro n hn
          rcases List.mem_append.mp hn with hn | hn
          · obtain ⟨v, hv5, hle⟩ := hlb n hn
            by_cases hns : n.state = nb
            · rw [hns, hold] at hv5
              have := Option.some.inj hv5
              subst this
              rw [hns]
              exact ⟨c + 1, alookup_alistSet_self _ _ _, by linarith⟩
            · rw [alookup_alistSet_ne _ _ _ _ hns]
              exact ⟨v, hv5, hle⟩
          · rw [List.mem_singleton] at hn
            subst hn
            exact ⟨c + 1, alookup_alistSet_self _ _ _, le_refl _⟩
        · intro s v hs hvle
          by_cases hsnb : s = nb
          · subst hsnb
            exact ⟨c + 1, alookup_alistSet_self _ _ _, le_refl _⟩
          · rw [alookup_alistSet_ne _ _ _ _ hsnb]
            exact ⟨v, hs, hvle⟩
        · intro n hn
          exact List.mem_append_left _ hn
        · intro _
          exact ⟨c + 1, alookup_alistSet_self _ _ _, le_refl _⟩
      · have hreq : r = acc := by
          rw [← hr]
          simp [aStarPush, if_neg hv, hold, hsc, hlt]
        subst hreq
        exact ⟨hsc, hok, hnn, hbest, hlb, fun s v hs hvle => ⟨v, hs, hvle⟩,
          fun n hn => hn, fun _ => ⟨old, hold, not_lt.mp hlt⟩⟩

theorem aStarExpand_fold_inv (g : Graph) (startState : State) (node : SearchNode)
    (visited₂ : List State) (hnodevis : node.state ∈ visited₂)
    (hSI : SearchInv g startState node) (c : ℚ) (hcnn : 0 ≤ c)
    (hplen : (node.path.length : ℚ) ≤ c + 1) :
    ∀ (nbrs : List State) (acc r : List SearchNode × List (State × ℚ)),
      List.foldl (aStarPush g heuristicTimeToFailure 1 g.failureStates node visited₂)
        acc nbrs = r →
      (∀ nb ∈ nbrs, nb ∈ g.getNeighbors node.state) →
      alookup acc.2 node.state = some c →
      (∀ n ∈ acc.1, NodeCostOk g startState n) →
      (∀ s v, alookup acc.2 s = some v → 0 ≤ v) →
      (∀ s v, alookup acc.2 s = some v → s ∉ visited₂ →
        ∃ b ∈ acc.1, b.state = s ∧ b.cost = v) →
      (∀ n ∈ acc.1, ∃ v, alookup acc.2 n.state = some v ∧ v ≤ n.cost) →
      ((∀ n ∈ r.1, NodeCostOk g startState n) ∧
       (∀ s v, alookup r.2 s = some v → 0 ≤ v) ∧
       (∀ s v, alookup r.2 s = some v → s ∉ visited₂ →
         ∃ b ∈ r.1, b.state = s ∧ b.cost = v) ∧
       (∀ n ∈ r.1, ∃ v, alookup r.2 n.state = some v ∧ v ≤ n.cost) ∧
       (∀ n ∈ acc.1, n ∈ r.1) ∧
       (∀ s v, alookup acc.2 s = some v → v ≤ c + 1 →
         ∃ u, alookup r.2 s = some u ∧ u ≤ c + 1) ∧
       (∀ nb ∈ nbrs, nb ∉ visited₂ →
         ∃ v, alookup r.2 nb = some v ∧ v ≤ c + 1)) := by
  intro nbrs
  induction nbrs with
  | nil =>
    intro acc r hfold _ _ hok hnn hbest hlb
    rw [List.foldl_nil] at hfold
    subst hfold
    exact ⟨hok, hnn, hbest, hlb, fun n hn => hn,
      fun s v hs hvle => ⟨v, hs, hvle⟩, fun nb hnb => absurd hnb (List.not_mem_nil nb)⟩
  | cons nb nrest ih =>
    intro acc r hfold hsub hsc hok hnn hbest hlb
    rw [List.foldl_cons] at hfold
    obtain ⟨s1, s2, s3, s4, s5, s6, s7, s8⟩ :=
      aStarPush_step_inv g startState node visited₂ hnodevis hSI c hcnn hplen
        nb (hsub nb (List.mem_cons_self _ _)) acc _ rfl hsc hok hnn hbest hlb
    obtain ⟨t1, t2, t3, t4, t5, t6, t7⟩ :=
      ih _ r hfold (fun x hx => hsub x (List.mem_cons_of_mem _ hx)) s1 s2 s3 s4 s5
    refine ⟨t1, t2, t3, t4, ?_, ?_, ?_⟩
    · intro n hn
      exact t5 n (s7 n hn)
    · intro s v hs hvle
      obtain ⟨u, hu, hule⟩ := s6 s v hs hvle
      exact t6 s u hu hule
    · intro x hx hxvis
      rcases List.mem_cons.mp hx with hx | hx
      · subst hx
        obtain ⟨v, hv8, hle8⟩ := s8 hxvis
        exact t6 x v hv8 hle8
      · exact t7 x hx hxvis

theorem aStarLoop_returns (g : Graph) (startState : State) (P : List State)
    (maxDepth : Nat)
    (pop : List SearchNode → Option (SearchNode × List SearchNode))
    (hpop : MinPopSpec pop)
    (hUSP : UniqueShortestPath g startState (fun s => g.isFailureState s) P)
    (hdepth : P.length ≤ maxDepth) :
    ∀ (fuel : Nat) (openSet : List SearchNode) (gs : List (State × ℚ))
      (visited : List State) (r : Option (List State)),
      ScoreInv g startState openSet gs visited →
      WitnessInv g P openSet visited →
      aStarLoop g (fun s => g.isFailureState s) heuristicTimeToFailure 1 maxDepth
        g.failureStates pop fuel openSet gs visited = some r →
      r = some P := by
  have hPval : ValidPath g startState (fun s => g.isFailureState s) P := hUSP.1
  have hPne : P ≠ [] := validPath_ne_nil hPval
  have hPlen1 : 0 < P.length := List.length_pos.mpr hPne
  have hWB : ∀ (openSet : List SearchNode) (visited : List State),
      (∀ n ∈ openSet, NodeCostOk g startState n) →
      WitnessInv g P openSet visited →
      ∃ n ∈ openSet, n.totalCost ≤ (P.length : ℚ) - 1 := by
    intro openSet visited hok hW
    obtain ⟨i, hi, ⟨n, hnmem, hnstate, hncost⟩, hnv⟩ := hW
    refine ⟨n, hnmem, ?_⟩
    have hnok := hok n hnmem
    rcases hnok.2.2.2.2 with hh | ⟨hc0, hh0⟩
    · by_cases hlast : i = P.length - 1
      · have hg : g.isFailureState (P.get ⟨i, hi⟩) = true := by
          subst hlast
          exact validPath_get_last hPval hi
        have hhv : heuristicTimeToFailure n.state g g.failureStates = 0 := by
          rw [hnstate]
          exact hvFail_of_goal_true g _ hg
        rw [SearchNode.totalCost, hh, hhv]
        have hiq : i + 1 = P.length := by omega
        have hiq2 : ((i:ℚ) + 1) = (P.length:ℚ) := by exact_mod_cast hiq
        linarith
      · have hbound : i < P.length - 1 := by omega
        have hgf : g.isFailureState (P.get ⟨i, hi⟩) = false :=
          uniqueShortest_mid_not_goal hUSP i hi hbound
        have hnotmem : P.get ⟨i, hi⟩ ∉ g.failureStates := by
          rw [Graph.isFailureState] at hgf
          exact of_decide_eq_false hgf
        have hhv : heuristicTimeToFailure n.state g g.failureStates = 1 := by
          rw [hnstate, heuristicTimeToFailure, if_neg hnotmem]
        rw [SearchNode.totalCost, hh, hhv]
        have hiq : i + 2 ≤ P.length := by omega
        have hiq2 : ((i:ℚ) + 2) ≤ (P.length:ℚ) := by exact_mod_cast hiq
        linarith
    · rw [SearchNode.totalCost, hc0, hh0]
      have : (1:ℚ) ≤ (P.length:ℚ) := by exact_mod_cast hPlen1
      linarith
  intro fuel
  induction fuel with
  | zero =>
    intro openSet gs visited r _ _ hres
    cases hres
  | succ fuel ih =>
    intro openSet gs visited r hS hW hres
    obtain ⟨hok, hnn, hbest, hlb⟩ := hS
    rcases hpopped : pop openSet with _ | nr
    · obtain ⟨n, hnmem, _⟩ := hWB openSet visited hok hW
      have hne : openSet ≠ [] := by
        intro he
        rw [he] at hnmem
        exact absurd hnmem (List.not_mem_nil n)
      have hsome := hpop.2.1 openSet hne
      rw [hpopped] at hsome
      cases hsome
    · obtain ⟨node, rest⟩ := nr
      simp only [aStarLoop, hpopped] at hres
      obtain ⟨hperm, hmin⟩ := hpop.2.2 openSet node rest hpopped
      have hnodeOpen : node ∈ openSet := hperm.mem_iff.mp (List.mem_cons_self _ _)
      by_cases hvis : node.state ∈ visited
      · rw [if_pos hvis] at hres
        refine ih rest gs visited r ⟨?_, hnn, ?_, ?_⟩ ?_ hres
        · intro n hn
          exact hok n (hperm.mem_iff.mp (List.mem_cons_of_mem _ hn))
        · intro s v hs hsv
          obtain ⟨b, hb, hbs, hbc⟩ := hbest s v hs hsv
          have hbnode : b ≠ node := by
            intro he
            apply hsv
            rw [← hbs, he]
            exact hvis
          rcases List.mem_cons.mp (hperm.mem_iff.mpr hb) with he | hb'
          · exact absurd he hbnode
          · exact ⟨b, hb', hbs, hbc⟩
        · intro n hn
          exact hlb n (hperm.mem_iff.mp (List.mem_cons_of_mem _ hn))
        · obtain ⟨i, hi, ⟨n, hnmem, hns, hnc⟩, hnv⟩ := hW
          have hnnode : n ≠ node := by
            intro he
            apply hnv i (le_refl i) hi
            rw [← hns, he]
            exact hvis
          rcases List.mem_cons.mp (hperm.mem_iff.mpr hnmem) with he | hn'
          · exact absurd he hnnode
          · exact ⟨i, hi, ⟨n, hn', hns, hnc⟩, hnv⟩
      · rw [if_neg hvis] at hres
        obtain ⟨wn, hwmem, hwtc⟩ := hWB openSet visited hok hW
        have hnodetc : node.totalCost ≤ (P.length:ℚ) - 1 := le_trans (hmin wn hwmem) hwtc
        have hnodeok := hok node hnodeOpen
        have hcost_tc : node.cost ≤ node.totalCost := by
          rw [SearchNode.totalCost]
          linarith [hnodeok.2.2.1]
        have hplen_bound : (node.path.length:ℚ) ≤ (P.length:ℚ) := by
          linarith [hnodeok.2.2.2.1]
        have hplenN : node.path.length ≤ P.length := by exact_mod_cast hplen_bound
        have hplen1 : 1 ≤ node.path.length := List.length_pos.mpr hnodeok.1.1
        have hdepthok : ¬ (maxDepth ≤ node.path.length - 1) := by omega
        rw [if_neg hdepthok] at hres
        by_cases hgoal : g.isFailureState node.state = true
        · rw [if_pos hgoal] at hres
          have hr : some node.path = r := Option.some.inj hres
          have hVP : ValidPath g startState (fun s => g.isFailureState s) node.path :=
            searchInv_validPath g startState _ node hnodeok.1 hgoal
          have hlenge : P.length ≤ node.path.length := (hUSP.2 _ hVP).1
          have hleneq : node.path.length = P.length := le_antisymm hplenN hlenge
          rw [← hr, (hUSP.2 _ hVP).2 hleneq]
        · rw [if_neg hgoal] at hres
          obtain ⟨cv, hcv, hcvle⟩ := hlb node hnodeOpen
          obtain ⟨b, hbmem, hbs, hbc⟩ := hbest node.state cv hcv hvis
          have hbok := hok b hbmem
          have hnodec : node.cost ≤ cv := by
            have htc := hmin b hbmem
            rw [SearchNode.totalCost, SearchNode.totalCost] at htc
            rcases hnodeok.2.2.2.2 with hnh | ⟨hc0, _⟩
            · rcases hbok.2.2.2.2 with hbh | ⟨hbc0, hbh0⟩
              · rw [hbh, hbs, hnh] at htc
                rw [← hbc]
                linarith
              · rw [hnh, hbh0] at htc
                rw [← hbc, hbc0]
                have := hvFail_nonneg g node.state
                linarith
            · rw [hc0]
              exact hnn node.state cv hcv
          have hceq : cv = node.cost := le_antisymm hcvle hnodec
          subst hceq
          have hnodevis₂ : node.state ∈ visited ++ [node.state] :=
            List.mem_append_right _ (List.mem_singleton_self _)
          have hexp : List.foldl
              (aStarPush g heuristicTimeToFailure 1 g.failureStates node
                (visited ++ [node.state]))
              (rest, gs) (g.getNeighbors node.state) =
              aStarExpand g heuristicTimeToFailure 1 g.failureStates node
                (visited ++ [node.state]) (rest, gs) := by
            rw [aStarExpand]
          obtain ⟨t1, t2, t3, t4, t5, t6, t7⟩ :=
            aStarExpand_fold_inv g startState node (visited ++ [node.state])
              hnodevis₂ hnodeok.1 node.cost hnodeok.2.1 hnodeok.2.2.2.1
              (g.getNeighbors node.state) (rest, gs) _ hexp (fun nb hnb => hnb)
              hcv
              (fun n hn => hok n (hperm.mem_iff.mp (List.mem_cons_of_mem _ hn)))
              hnn
              (fun s v hs hsv => by
                have hsvold : s ∉ visited := fun hc => hsv (List.mem_append_left _ hc)
                obtain ⟨b', hb', hbs', hbc'⟩ := hbest s v hs hsvold
                have hbnode : b' ≠ node := by
                  intro he
                  apply hsv
                  rw [← hbs', he]
                  exact hnodevis₂
                rcases List.mem_cons.mp (hperm.mem_iff.mpr hb') with he | hb''
                · exact absurd he hbnode
                · exact ⟨b', hb'', hbs', hbc'⟩)
              (fun n hn => hlb n (hperm.mem_iff.mp (List.mem_cons_of_mem _ hn)))
          obtain ⟨i, hi, ⟨n, hnmem, hns, hnc⟩, hnv⟩ := hW
          have hget? : ∀ j (hj : j < P.length), P.get? j = some (P.get ⟨j, hj⟩) :=
            fun j hj => List.get?_eq_get hj
          by_cases hcase : ∃ j, i ≤ j ∧ P.get? j = some node.state
          · have hbdd : ∀ j, (i ≤ j ∧ P.get? j = some node.state) → j < P.length := by
              intro j hQ
              by_contra hc
              rw [List.get?_eq_none.mpr (le_of_not_lt hc)] at hQ
              cases hQ.2
            obtain ⟨k, ⟨hik, hPk?⟩, hkmax⟩ :=
              exists_max_of_bdd (fun j => i ≤ j ∧ P.get? j = some node.state)
                P.length hbdd hcase
            have hk : k < P.length := hbdd k ⟨hik, hPk?⟩
            have hPk : P.get ⟨k, hk⟩ = node.state := by
              rw [hget? k hk] at hPk?
              exact Option.some.inj hPk?
            have hklast : k ≠ P.length - 1 := by
              intro he
              apply hgoal
              rw [← hPk]
              have : P.get ⟨k, hk⟩ = P.get ⟨P.length - 1, by omega⟩ := by
                congr 1
                exact Fin.ext he
              rw [this]
              exact validPath_get_last hPval (by omega)
            have hk1 : k + 1 < P.length := by omega
            have hadj : P.get ⟨k+1, hk1⟩ ∈ g.getNeighbors node.state := by
              rw [← hPk]
              exact List.chain'_iff_get.mp hUSP.1.2.1 k (by omega)
            have hk1vis : P.get ⟨k+1, hk1⟩ ∉ visited ++ [node.state] := by
              intro hc
              rcases List.mem_append.mp hc with hc | hc
              · exact hnv (k+1) (by omega) hk1 hc
              · rw [List.mem_singleton] at hc
                have : i ≤ k + 1 ∧ P.get? (k+1) = some node.state :=
                  ⟨by omega, by rw [hget? (k+1) hk1, hc]⟩
                exact absurd (hkmax (k+1) this) (by omega)
            have hnhle : n.heuristicCost ≤ 1 := by
              have hnok2 := hok n hnmem
              rcases hnok2.2.2.2.2 with hh | ⟨_, hh0⟩
              · rw [hh]
                exact hvFail_le_one g n.state
              · rw [hh0]
                norm_num
            have hnodek : node.cost ≤ (k:ℚ) := by
              by_cases hki : k = i
              · subst hki
                have hsame : n.state = node.state := by
                  rw [hns, hPk]
                have htc := hmin n hnmem
                rw [SearchNode.totalCost, SearchNode.totalCost] at htc
                have hnok2 := hok n hnmem
                rcases hnodeok.2.2.2.2 with hnh | ⟨hc0, _⟩
                · rcases hnok2.2.2.2.2 with hh | ⟨hn0, hh0⟩
                  · rw [hh, hsame, hnh] at htc
                    linarith
                  · rw [hnh, hh0, hn0] at htc
                    have := hvFail_nonneg g node.state
                    linarith
                · rw [hc0]
                  exact_mod_cast Nat.cast_nonneg k
              · have hik2 : i + 1 ≤ k := by omega
                have htc := hmin n hnmem
                rw [SearchNode.totalCost, SearchNode.totalCost] at htc
                have hcast : ((i:ℚ) + 1) ≤ (k:ℚ) := by exact_mod_cast hik2
                linarith [hnodeok.2.2.1]
            obtain ⟨v7, hv7, hle7⟩ := t7 (P.get ⟨k+1, hk1⟩) hadj hk1vis
            obtain ⟨b7, hb7mem, hb7s, hb7c⟩ := t3 _ v7 hv7 hk1vis
            refine ih _ _ _ r ⟨t1, t2, t3, t4⟩ ⟨k+1, hk1, ⟨b7, hb7mem, hb7s, ?_⟩, ?_⟩ hres
            · rw [hb7c]
              push_cast
              linarith
            · intro j hj1 hj
              intro hc
              rcases List.mem_append.mp hc with hc | hc
              · exact hnv j (by omega) hj hc
              · rw [List.mem_singleton] at hc
                have : i ≤ j ∧ P.get? j = some node.state :=
                  ⟨by omega, by rw [hget? j hj, hc]⟩
                exact absurd (hkmax j this) (by omega)
          · have hnnode : n ≠ node := by
              intro he
              apply hcase
              refine ⟨i, le_refl i, ?_⟩
              rw [hget? i hi, ← hns, he]
            rcases List.mem_cons.mp (hperm.mem_iff.mpr hnmem) with he | hn'
            · exact absurd he hnnode
            · refine ih _ _ _ r ⟨t1, t2, t3, t4⟩ ⟨i, hi, ⟨n, t5 n hn', hns, hnc⟩, ?_⟩ hres
              intro j hj1 hj hc
              rcases List.mem_append.mp hc with hc | hc
              · exact hnv j hj1 hj hc
              · rw [List.mem_singleton] at hc
                apply hcase
                refine ⟨j, hj1, ?_⟩
                rw [hget? j hj, hc]

theorem noValid_gNoPath :
    ∀ q, ¬ ValidPath gNoPath sA (fun s => gNoPath.isFailureState s) q := by
  intro q hq
  obtain ⟨hhead, hchain, lastSt, hlast, hgoal⟩ := hq
  rcases q with _ | ⟨a, t⟩
  · cases hhead
  · have ha : a = sA := Option.some.inj hhead
    subst ha
    rcases t with _ | ⟨b, t2⟩
    · have hl : lastSt = sA := (Option.some.inj hlast).symm
      subst hl
      exact absurd hgoal (by decide)
    · rw [List.chain'_cons] at hchain
      have hb : b ∈ gNoPath.getNeighbors sA := hchain.1
      have hnb : gNoPath.getNeighbors sA = [sB] := by decide
      rw [hnb, List.mem_singleton] at hb
      subst hb
      rcases t2 with _ | ⟨c, t3⟩
      · have hl : lastSt = sB := (Option.some.inj hlast).symm
        subst hl
        exact absurd hgoal (by decide)
      · rw [List.chain'_cons] at hchain
        have hc : c ∈ gNoPath.getNeighbors sB := hchain.2.1
        have hnc : gNoPath.getNeighbors sB = [] := by decide
        rw [hnc] at hc
        exact absurd hc (List.not_mem_nil c)

theorem uniqueShortest_gUniq :
    UniqueShortestPath gUniq sA (fun s => gUniq.isFailureState s) [sA, sF] := by
  constructor
  · refine ⟨rfl, ?_, sF, rfl, by decide⟩
    rw [List.chain'_cons]
    exact ⟨by decide, List.chain'_singleton _⟩
  · intro q hq
    obtain ⟨hhead, hchain, lastSt, hlast, hgoal⟩ := hq
    rcases q with _ | ⟨a, t⟩
    · cases hhead
    · have ha : a = sA := Option.some.inj hhead
      subst ha
      rcases t with _ | ⟨b, t2⟩
      · have hl : lastSt = sA := (Option.some.inj hlast).symm
        subst hl
        exact absurd hgoal (by decide)
      · rw [List.chain'_cons] at hchain
        have hb : b ∈ gUniq.getNeighbors sA := hchain.1
        have hnb : gUniq.getNeighbors sA = [sF] := by decide
        rw [hnb, List.mem_singleton] at hb
        subst hb
        rcases t2 with _ | ⟨c, t3⟩
        · exact ⟨le_refl _, fun _ => rfl⟩
        · rw [List.chain'_cons] at hchain
          have hc : c ∈ gUniq.getNeighbors sF := hchain.2.1
          have hnc : gUniq.getNeighbors sF = [] := by decide
          rw [hnc] at hc
          exact absurd hc (List.not_mem_nil c)

/-- C3: `a_star` run with the constant heuristic
`heuristic_time_to_failure` and weight `1.0`, with the failure-state
goal, on a graph that has a unique shortest valid path `P` from the
start state to a failure state of length within the depth bound,
returns exactly `P` on every completed run; on a graph with no valid
path from the start state to any failure state, every completed run
returns the no-path result (`None`). -/
theorem claim_C3 :
    (∀ (g : Graph) (startState : State) (maxDepth : Nat)
       (pop : List SearchNode → Option (SearchNode × List SearchNode))
       (fuel : Nat) (P : List State) (r : Option (List State)),
      MinPopSpec pop →
      UniqueShortestPath g startState (fun s => g.isFailureState s) P →
      P.length ≤ maxDepth →
      aStar g startState (fun s => g.isFailureState s) heuristicTimeToFailure
        maxDepth 1 pop fuel = some r →
      r = some P) ∧
    (∀ (g : Graph) (startState : State) (maxDepth : Nat)
       (pop : List SearchNode → Option (SearchNode × List SearchNode))
       (fuel : Nat) (r : Option (List State)),
      MinPopSpec pop →
      (∀ q, ¬ ValidPath g startState (fun s => g.isFailureState s) q) →
      aStar g startState (fun s => g.isFailureState s) heuristicTimeToFailure
        maxDepth 1 pop fuel = some r →
      r = none) := by
  constructor
  · intro g startState maxDepth pop fuel P r hpop hUSP hdep hres
    have hPval := hUSP.1
    have hi0 : 0 < P.length := List.length_pos.mpr (validPath_ne_nil hPval)
    refine aStarLoop_returns g startState P maxDepth pop hpop hUSP hdep fuel
      [⟨startState, [startState], 0, 0⟩] [(startState, 0)] [] r
      ⟨?_, ?_, ?_, ?_⟩
      ⟨0, hi0, ⟨⟨startState, [startState], 0, 0⟩, List.mem_singleton_self _,
        (validPath_get_zero hPval hi0).symm, by norm_num⟩,
        fun j hj1 hj => List.not_mem_nil _⟩ hres
    · intro n hn
      rw [List.mem_singleton] at hn
      subst hn
      refine ⟨searchInv_start g startState, le_refl 0, le_refl 0, ?_,
        Or.inr ⟨rfl, rfl⟩⟩
      show ((1:Nat):ℚ) ≤ 0 + 1
      norm_num
    · intro s v h
      by_cases hs : s = startState
      · rw [alookup, if_pos hs] at h
        have := Option.some.inj h
        rw [← this]
      · rw [alookup, if_neg hs, alookup] at h
        cases h
    · intro s v h hs
      by_cases heq : s = startState
      · subst heq
        rw [alookup, if_pos rfl] at h
        exact ⟨_, List.mem_singleton_self _, rfl, Option.some.inj h⟩
      · rw [alookup, if_neg heq, alookup] at h
        cases h
    · intro n hn
      rw [List.mem_singleton] at hn
      subst hn
      refine ⟨0, ?_, le_refl 0⟩
      rw [alookup, if_pos rfl]
  · intro g startState maxDepth pop fuel r hpop hnone hres
    cases r with
    | none => rfl
    | some p =>
      exact absurd
        (aStarLoop_sound g startState (fun s => g.isFailureState s)
          heuristicTimeToFailure 1 maxDepth g.failureStates pop hpop fuel
          [⟨startState, [startState], 0, 0⟩] [(startState, 0)] [] p
          (fun n hn => by
            rw [List.mem_singleton] at hn
            exact hn ▸ searchInv_start g startState)
          hres)
        (hnone p)

/-- C3 witness: on the one-edge graph `A → F` the unique shortest path
`[A, F]` is returned, and on the graph whose failure state is
unreachable the run returns the no-path result. -/
theorem claim_C3_witness :
    (some [sA, sF] : Option (List State)) = some [sA, sF] ∧
    (none : Option (List State)) = none :=
  ⟨claim_C3.1 gUniq sA 10 popMinImpl 100 [sA, sF] (some [sA, sF])
      popMinImpl_spec uniqueShortest_gUniq (by decide) (by rfl),
   claim_C3.2 gNoPath sA 10 popMinImpl 100 none popMinImpl_spec
      noValid_gNoPath (by rfl)⟩

/-- C10 witness: the chain graph `A → B → F` instantiates all three
parts — the single path `[A, B, F]` returned by each algorithm is a
valid path to the failure state. -/
theorem claim_C10_witness :
    ValidPath gChain sA (fun s => gChain.isFailureState s) [sA, sB, sF] ∧
    ValidPath gChain sA (fun s => gChain.isFailureState s) [sA, sB, sF] ∧
    ValidPath gChain sA (fun s => gChain.isFailureState s) [sA, sB, sF] :=
  ⟨claim_C10.1 gChain sA (fun s => gChain.isFailureState s) 10 10 100
      [[sA, sB, sF]] (by rfl) [sA, sB, sF] (by decide),
   claim_C10.2.1 gChain sA (fun s => gChain.isFailureState s) 10 100
      [[sA, sB, sF]] (by rfl) [sA, sB, sF] (by decide),
   claim_C10.2.2 gChain sA (fun s => gChain.isFailureState s)
      heuristicTimeToFailure 10 1 popMinImpl 100 [sA, sB, sF]
      popMinImpl_spec (by rfl)⟩

end EqMon
